import Mathlib

set_option maxHeartbeats 1000000

/-! Verification development for the node-graph workflow system: graph model,
scheduler readiness, engine execution, zones and provenance recording.
The definitions below embed the system described in the specification; the
implementation sources of this repository ship only documentation, so each
executable definition is modelled from the specification text. -/

/-- Task execution states of the graph model. -/
inductive TaskState where
  | CREATED | WAITING | RUNNING | FINISHED | FAILED | SKIPPED | CANCELLED | PAUSED
deriving DecidableEq, Repr

/-- Modelled from the spec: socket data types from the Socket Registry (the
implementation module node_graph.socket is absent from the sources), including
the generic type. -/
inductive SocketType where
  | general | tfloat | tint | tbool | tstring
deriving DecidableEq, Repr

/-- Modelled from the spec: two socket types are compatible when they are equal
or either side is the generic type. -/
def typesCompatible (a b : SocketType) : Bool :=
  a == b || a == SocketType.general || b == SocketType.general

/-- A typed socket as it appears at graph-construction time. -/
structure CSocket where
  sockName : String
  stype : SocketType
deriving DecidableEq, Repr

/-- A task at graph-construction time: identifier, unique name, typed input and
output sockets. -/
structure CTask where
  identifier : String
  taskName : String
  inSockets : List CSocket
  outSockets : List CSocket
deriving DecidableEq, Repr

/-- A directed link from an output socket to an input socket, both referenced
by task index and socket position. -/
structure CLink where
  fromTask : Nat
  fromSock : Nat
  toTask : Nat
  toSock : Nat
deriving DecidableEq, Repr

/-- A graph under construction: ordered tasks and ordered links. -/
structure CGraph where
  graphName : String
  tasks : List CTask
  links : List CLink
deriving DecidableEq, Repr

/-- Errors reported at graph-construction time. -/
inductive GraphError where
  | typeMismatch (fromType toType : SocketType)
  | badEndpoint
  | duplicateName (n : String)
deriving DecidableEq, Repr

/-- The declared type of an output socket, when the endpoint exists. -/
def outSocketType (g : CGraph) (t s : Nat) : Option SocketType :=
  match g.tasks[t]? with
  | none => none
  | some task =>
    match task.outSockets[s]? with
    | none => none
    | some sock => some sock.stype

/-- The declared type of an input socket, when the endpoint exists. -/
def inSocketType (g : CGraph) (t s : Nat) : Option SocketType :=
  match g.tasks[t]? with
  | none => none
  | some task =>
    match task.inSockets[s]? with
    | none => none
    | some sock => some sock.stype

/-- Modelled from the spec: adding a Link validates both endpoints and their
type compatibility immediately at construction time; an incompatible pair
aborts with a typeMismatch error, and a new link to an already connected
input replaces the prior one. -/
def addLink (g : CGraph) (l : CLink) : Except GraphError CGraph :=
  match outSocketType g l.fromTask l.fromSock, inSocketType g l.toTask l.toSock with
  | some a, some b =>
    if typesCompatible a b then
      Except.ok { g with links :=
        (g.links.filter (fun k => !(k.toTask == l.toTask && k.toSock == l.toSock))) ++ [l] }
    else
      Except.error (GraphError.typeMismatch a b)
  | _, _ => Except.error GraphError.badEndpoint

/-- Whether an Except value carries a success. -/
def exOk {e a : Type} : Except e a → Bool
  | Except.ok _ => true
  | Except.error _ => false

/-- An item of a named collection. -/
structure NamedItem (a : Type) where
  itemName : String
  payload : a
deriving DecidableEq, Repr

/-- Modelled from the spec: an ordered collection on a Graph or Task (tasks,
links, properties, input and output sockets) supporting access by position
and by name. -/
structure Collection (a : Type) where
  items : List (NamedItem a)
deriving DecidableEq, Repr

/-- Retrieval from a collection by positional index. -/
def Collection.getByIndex {a : Type} (c : Collection a) (i : Nat) : Option (NamedItem a) :=
  c.items[i]?

/-- Retrieval from a collection by item name: the first item carrying the
name. -/
def Collection.getByName {a : Type} (c : Collection a) (n : String) : Option (NamedItem a) :=
  c.items.find? (fun it => it.itemName == n)

/-- Modelled from the spec: appending a new item to a collection rejects a
duplicate name immediately at construction time. -/
def Collection.addItem {a : Type} (c : Collection a) (it : NamedItem a) :
    Except GraphError (Collection a) :=
  if (c.getByName it.itemName).isSome then
    Except.error (GraphError.duplicateName it.itemName)
  else
    Except.ok ⟨c.items ++ [it]⟩

/-- Modelled from the spec: data types a Property can declare in
allowed_types. -/
inductive PType where
  | pint | pfloat | pbool | pstring | plist
deriving DecidableEq, Repr

/-- Modelled from the spec: a runtime value offered to a Property: either a
plain value of some data type, or a wrapper object exposing the plain value
through a __wrapped__ attribute, or a box exposing it through a value
attribute. -/
inductive PVal where
  | base (t : PType) (payload : Int)
  | wrapped (inner : PVal)
  | boxed (inner : PVal)
deriving DecidableEq, Repr

/-- A plain value matches allowed_types when its data type is listed; wrapper
objects themselves never match a plain data type. -/
def matchesAllowed (allowed : List PType) : PVal → Bool
  | PVal.base t _ => allowed.contains t
  | _ => false

/-- Modelled from the spec: the built-in unwrappings tried by
TaskProperty.validate: the value behind a __wrapped__ attribute and the value
behind a value attribute, when present. -/
def builtinCandidates : PVal → List PVal
  | PVal.wrapped inner => [inner]
  | PVal.boxed inner => [inner]
  | PVal.base _ _ => []

/-- Validation errors raised by a Property. -/
inductive PropError where
  | typeMismatchAt (socket : String) (v : PVal)
deriving DecidableEq, Repr

/-- Values produced by the registered validation adapters for a value. -/
def adapterCandidates (adapters : List (PVal → Option PVal)) (v : PVal) : List PVal :=
  adapters.filterMap (fun f => f v)

/-- Modelled from the spec: TaskProperty.validate accepts the value itself,
else the first unwrapped candidate (built-in unwrappings, then registered
adapters) matching allowed_types; otherwise it fails with a TypeMismatch
naming the socket and the offending value. -/
def validateProp (allowed : List PType) (adapters : List (PVal → Option PVal))
    (socket : String) (v : PVal) : Except PropError PVal :=
  if matchesAllowed allowed v then Except.ok v
  else
    match (builtinCandidates v ++ adapterCandidates adapters v).find? (matchesAllowed allowed) with
    | some w => Except.ok w
    | none => Except.error (PropError.typeMismatchAt socket v)

/-- Acceptance exactly as the specification words it: the value itself, or a
value obtained from it by one of the unwrap adapters, matches
allowed_types. -/
def specAccepts (allowed : List PType) (adapters : List (PVal → Option PVal)) (v : PVal) : Prop :=
  matchesAllowed allowed v = true ∨
    ∃ w ∈ builtinCandidates v ++ adapterCandidates adapters v, matchesAllowed allowed w = true

/-- A property value carried by the serialized interchange form. -/
inductive DVal where
  | di (n : Int)
  | ds (s : String)
  | db (b : Bool)
deriving DecidableEq, Repr

/-- The kind of a Zone. -/
inductive ZoneKind where
  | zif | zwhile
deriving DecidableEq, Repr

/-- A named property value on a serializable task. -/
structure SProp where
  propName : String
  value : DVal
deriving DecidableEq, Repr

/-- A serializable task: stable identifier, unique name, property values. -/
structure STask where
  identifier : String
  stName : String
  props : List SProp
deriving DecidableEq, Repr

/-- A link of the in-memory serializable graph, endpoints by task index and
socket position. -/
structure SLink where
  fromTask : Nat
  fromSock : Nat
  toTask : Nat
  toSock : Nat
deriving DecidableEq, Repr

/-- A zone of the in-memory serializable graph: kind, condition socket and
member tasks by index. -/
structure SZone where
  kind : ZoneKind
  condTask : Nat
  condSock : Nat
  members : List Nat
deriving DecidableEq, Repr

/-- The in-memory graph form that export starts from and import rebuilds. -/
structure SGraph where
  sgName : String
  tasks : List STask
  links : List SLink
  zones : List SZone
deriving DecidableEq, Repr

/-- A link of the serialized document: endpoints referenced by task name and
socket position, as in the YAML interchange form. -/
structure DocLink where
  fromNode : String
  fromSock : Nat
  toNode : String
  toSock : Nat
deriving DecidableEq, Repr

/-- A zone of the serialized document: condition and membership by task
name. -/
structure DocZone where
  kind : ZoneKind
  condNode : String
  condSock : Nat
  members : List String
deriving DecidableEq, Repr

/-- The serialized interchange document: name, ordered task list, ordered
link list with endpoints by task name, zone membership by task name. -/
structure GraphDoc where
  docName : String
  tasks : List STask
  links : List DocLink
  zones : List DocZone
deriving DecidableEq, Repr

/-- The name of the task at an index of a serializable graph. -/
def sTaskName (g : SGraph) (i : Nat) : String :=
  match g.tasks[i]? with
  | some t => t.stName
  | none => ""

/-- Modelled from the spec: export of a Graph to the serialized interchange
form: every field the core defines is written out, link endpoints and zone
membership keyed by task name. -/
def exportDoc (g : SGraph) : GraphDoc :=
  { docName := g.sgName
    tasks := g.tasks
    links := g.links.map (fun l =>
      { fromNode := sTaskName g l.fromTask, fromSock := l.fromSock
        toNode := sTaskName g l.toTask, toSock := l.toSock })
    zones := g.zones.map (fun z =>
      { kind := z.kind, condNode := sTaskName g z.condTask, condSock := z.condSock
        members := z.members.map (sTaskName g) }) }

/-- The index of the first task carrying a name. -/
def findTaskIdx : List STask → String → Option Nat
  | [], _ => none
  | t :: ts, n => if t.stName == n then some 0 else (findTaskIdx ts n).map (fun j => j + 1)

/-- Turn an optional lookup into an import-time error when absent. -/
def req {b : Type} (o : Option b) : Except GraphError b :=
  match o with
  | some x => Except.ok x
  | none => Except.error GraphError.badEndpoint

/-- Sequence a fallible translation over a list, stopping at the first
error. -/
def mapE {b c : Type} (f : b → Except GraphError c) : List b → Except GraphError (List c)
  | [] => Except.ok []
  | x :: xs =>
    match f x, mapE f xs with
    | Except.ok y, Except.ok ys => Except.ok (y :: ys)
    | Except.error e, _ => Except.error e
    | Except.ok _, Except.error e => Except.error e

/-- Translate a document link back to index form. -/
def importLink (ts : List STask) (l : DocLink) : Except GraphError SLink :=
  match findTaskIdx ts l.fromNode, findTaskIdx ts l.toNode with
  | some ft, some tt => Except.ok { fromTask := ft, fromSock := l.fromSock, toTask := tt, toSock := l.toSock }
  | _, _ => Except.error GraphError.badEndpoint

/-- Translate a document zone back to index form. -/
def importZone (ts : List STask) (z : DocZone) : Except GraphError SZone :=
  match findTaskIdx ts z.condNode, mapE (fun m => req (findTaskIdx ts m)) z.members with
  | some ct, Except.ok ms => Except.ok { kind := z.kind, condTask := ct, condSock := z.condSock, members := ms }
  | none, _ => Except.error GraphError.badEndpoint
  | some _, Except.error e => Except.error e

/-- Modelled from the spec: import of the serialized interchange form,
rebuilding tasks, links and zones; an endpoint naming an unknown task aborts
the import with an error. -/
def importDoc (d : GraphDoc) : Except GraphError SGraph :=
  match mapE (importLink d.tasks) d.links, mapE (importZone d.tasks) d.zones with
  | Except.ok ls, Except.ok zs =>
    Except.ok { sgName := d.docName, tasks := d.tasks, links := ls, zones := zs }
  | Except.error e, _ => Except.error e
  | Except.ok _, Except.error e => Except.error e

/-- A process entry of the zone-level Provenance Recorder: the invocation
identifier, the invoked task, and the zone iteration it belongs to. -/
structure ZEntry where
  invId : Nat
  taskIdx : Nat
  iteration : Nat
deriving DecidableEq, Repr

/-- The zone-level Provenance Recorder: the append-only entry list and the
next fresh invocation identifier. -/
structure ZRecorder where
  entries : List ZEntry
  nextInv : Nat
deriving DecidableEq, Repr

/-- Modelled from the spec: one zone-body pass — every body Task is freshly
invoked, each invocation appending one process entry under a new invocation
identifier. -/
def runZoneBody : List Nat → Nat → ZRecorder → ZRecorder
  | [], _, r => r
  | t :: ts, iter, r =>
    runZoneBody ts iter ⟨r.entries ++ [⟨r.nextInv, t, iter⟩], r.nextInv + 1⟩

/-- Modelled from the spec: a While zone evaluates its condition before every
iteration; each time it is true all body Tasks are reset and re-invoked, and
when it is false the zone closes. -/
def runWhileZone (cond : Nat → Bool) (body : List Nat) : Nat → Nat → ZRecorder → ZRecorder
  | 0, _, r => r
  | fuel + 1, iter, r =>
    if cond iter then runWhileZone cond body fuel (iter + 1) (runZoneBody body iter r)
    else r

/-- Modelled from the spec: an If zone evaluates its condition exactly once;
when false every body Task transitions directly to SKIPPED with no invocation,
when true the body runs exactly once. -/
def runIfZone (cond : Bool) (body : List Nat) (r : ZRecorder) :
    List (Nat × TaskState) × ZRecorder :=
  if cond then (body.map (fun t => (t, TaskState.FINISHED)), runZoneBody body 0 r)
  else (body.map (fun t => (t, TaskState.SKIPPED)), r)

/-- The number of invocation entries the recorder holds for a task. -/
def invCount (r : ZRecorder) (t : Nat) : Nat :=
  r.entries.countP (fun e => e.taskIdx == t)

/-- Recorder sanity: every entry's invocation identifier is below the next
fresh one and identifiers strictly increase along the trace. -/
def idsOk (r : ZRecorder) : Prop :=
  (∀ e ∈ r.entries, e.invId < r.nextInv) ∧
    r.entries.Pairwise (fun e1 e2 => e1.invId < e2.invId)

/-- Values flowing through sockets of the executable engine model. -/
abbrev Value := Int

/-- The outcome of one external executor call: an ordered list of output
values, or an opaque executor failure. -/
inductive ExecResult where
  | ok (outs : List Value)
  | fail
deriving DecidableEq, Repr

/-- An input socket of an executable task: its name, whether a Property
default backs it, the default value, and an optional Context key it reads. -/
structure InSock where
  inName : String
  hasDefault : Bool
  defaultVal : Value
  ctxKey : Option String
deriving DecidableEq, Repr

/-- The fallback input socket used for out-of-range positional access. -/
def defInSock : InSock := { inName := "", hasDefault := false, defaultVal := 0, ctxKey := none }

/-- An executable task: identifier, name, ordered input sockets, and the
declared number of output sockets (outputs are positionally matched). -/
structure ETask where
  identifier : String
  eName : String
  inputs : List InSock
  nOuts : Nat
deriving DecidableEq, Repr

/-- The fallback task used for out-of-range positional access. -/
def defETask : ETask := { identifier := "", eName := "", inputs := [], nOuts := 0 }

/-- A link of the executable graph: from an output socket of one task to an
input socket of another, referenced positionally. -/
structure ELink where
  fromTask : Nat
  fromSock : Nat
  toTask : Nat
  toSock : Nat
deriving DecidableEq, Repr

/-- The executable zone-free graph: ordered tasks and ordered links. -/
structure EGraph where
  tasks : List ETask
  links : List ELink
deriving DecidableEq, Repr

/-- A process entry of the engine-level Provenance Recorder: invocation
identifier, invoked task, resolved inputs, and the produced outputs (none
records an executor failure). -/
structure PEntry where
  invId : Nat
  taskIdx : Nat
  resolved : List Value
  outputs : Option (List Value)
deriving DecidableEq, Repr

/-- A data-lineage edge of the recorder, from the invocation that produced an
input value to the invocation that consumed it. -/
structure PEdge where
  srcInv : Nat
  dstInv : Nat
deriving DecidableEq, Repr

/-- The execution-scoped engine state: per-task states, per-task output
values, the invocation that last produced each task's outputs, the recorder
trace, the lineage edges, the Context store, and the next fresh invocation
identifier. -/
structure EState where
  states : List TaskState
  outVals : List (List Value)
  producedBy : List (Option Nat)
  entries : List PEntry
  edges : List PEdge
  ctx : List (String × Value)
  nextInv : Nat
deriving DecidableEq, Repr

/-- The external executor table: positional task index to executor. -/
abbrev ExecTable := Nat → List Value → ExecResult

/-- The state of a task, CREATED when out of range. -/
def stateOf (s : EState) (t : Nat) : TaskState :=
  s.states.getD t TaskState.CREATED

/-- The task of a graph at an index. -/
def taskOf (g : EGraph) (t : Nat) : ETask :=
  g.tasks.getD t defETask

/-- The first (and by the graph invariant only) link feeding an input
socket. -/
def linkInto (g : EGraph) (t i : Nat) : Option ELink :=
  g.links.find? (fun l => l.toTask == t && l.toSock == i)

/-- A Context lookup by key. -/
def ctxLookup (s : EState) (k : String) : Option Value :=
  (s.ctx.find? (fun p => p.1 == k)).map Prod.snd

/-- Modelled from the spec: an input socket is resolvable when it is connected
to a Link whose source Task is FINISHED, or unconnected and backed by a
Property default, or explicitly set via the Context. -/
def inputResolvable (g : EGraph) (s : EState) (t i : Nat) : Bool :=
  match linkInto g t i with
  | some l => stateOf s l.fromTask == TaskState.FINISHED
  | none =>
    let sock := (taskOf g t).inputs.getD i defInSock
    sock.hasDefault ||
      (match sock.ctxKey with
       | some k => (ctxLookup s k).isSome
       | none => false)

/-- Modelled from the spec: the readiness rule — a task is ready when its
state is WAITING or CREATED and every input socket is resolvable. -/
def isReady (g : EGraph) (s : EState) (t : Nat) : Bool :=
  (stateOf s t == TaskState.WAITING || stateOf s t == TaskState.CREATED) &&
    (List.range (taskOf g t).inputs.length).all (fun i => inputResolvable g s t i)

/-- Modelled from the spec: among simultaneously ready tasks dispatch follows
graph insertion order, so the scheduler picks the first ready index. -/
def findReady (g : EGraph) (s : EState) : Option Nat :=
  (List.range g.tasks.length).find? (fun t => isReady g s t)

/-- Modelled from the spec: resolve the concrete value of one input socket
from its Link, its Property default, or the Context. -/
def resolveInput (g : EGraph) (s : EState) (t i : Nat) : Value :=
  match linkInto g t i with
  | some l => (s.outVals.getD l.fromTask []).getD l.fromSock 0
  | none =>
    let sock := (taskOf g t).inputs.getD i defInSock
    if sock.hasDefault then sock.defaultVal
    else
      match sock.ctxKey with
      | some k => (ctxLookup s k).getD 0
      | none => 0

/-- The ordered resolved input values of a task. -/
def resolvedInputs (g : EGraph) (s : EState) (t : Nat) : List Value :=
  (List.range (taskOf g t).inputs.length).map (fun i => resolveInput g s t i)

/-- The data-lineage edges of a fresh invocation: one edge from the producing
invocation of every connected input. -/
def lineageEdges (g : EGraph) (s : EState) (t inv : Nat) : List PEdge :=
  (List.range (taskOf g t).inputs.length).filterMap (fun i =>
    match linkInto g t i with
    | some l =>
      match s.producedBy.getD l.fromTask none with
      | some pid => some { srcInv := pid, dstInv := inv }
      | none => none
    | none => none)

/-- Modelled from the spec: the single-invocation protocol — resolve inputs,
record the invocation under a fresh identifier with its lineage edges, call
the external executor, and on success write the outputs back positionally and
finish the task; an executor failure or an output-arity mismatch marks the
task FAILED. -/
def dispatch (g : EGraph) (exec : ExecTable) (s : EState) (t : Nat) : EState :=
  match exec t (resolvedInputs g s t) with
  | ExecResult.ok outs =>
    if outs.length == (taskOf g t).nOuts then
      { s with
        states := s.states.set t TaskState.FINISHED
        outVals := s.outVals.set t outs
        producedBy := s.producedBy.set t (some s.nextInv)
        entries := s.entries ++ [{ invId := s.nextInv, taskIdx := t
                                   resolved := resolvedInputs g s t, outputs := some outs }]
        edges := s.edges ++ lineageEdges g s t s.nextInv
        nextInv := s.nextInv + 1 }
    else
      { s with
        states := s.states.set t TaskState.FAILED
        entries := s.entries ++ [{ invId := s.nextInv, taskIdx := t
                                   resolved := resolvedInputs g s t, outputs := none }]
        edges := s.edges ++ lineageEdges g s t s.nextInv
        nextInv := s.nextInv + 1 }
  | ExecResult.fail =>
    { s with
      states := s.states.set t TaskState.FAILED
      entries := s.entries ++ [{ invId := s.nextInv, taskIdx := t
                                 resolved := resolvedInputs g s t, outputs := none }]
      edges := s.edges ++ lineageEdges g s t s.nextInv
      nextInv := s.nextInv + 1 }

/-- Modelled from the spec: the engine loop — repeatedly ask the scheduler for
the next ready task and dispatch it, collecting the dispatch order, until no
task is ready or the fuel runs out. -/
def runLoop (g : EGraph) (exec : ExecTable) : Nat → EState → List Nat × EState
  | 0, s => ([], s)
  | fuel + 1, s =>
    match findReady g s with
    | none => ([], s)
    | some t =>
      let rest := runLoop g exec fuel (dispatch g exec s t)
      (t :: rest.1, rest.2)

/-- Whether a task state is terminal-bad for failure propagation. -/
def isBad (x : TaskState) : Bool :=
  x == TaskState.FAILED || x == TaskState.SKIPPED

/-- Whether a task state still awaits execution. -/
def isPendingState (x : TaskState) : Bool :=
  x == TaskState.CREATED || x == TaskState.WAITING

/-- The state stored at an index of a raw state table. -/
def sGet (sts : List TaskState) (t : Nat) : TaskState :=
  sts.getD t TaskState.CREATED

/-- Whether some link feeds a task from a FAILED or SKIPPED source. -/
def hasBadSource (g : EGraph) (sts : List TaskState) (t : Nat) : Bool :=
  g.links.any (fun l => l.toTask == t && isBad (sGet sts l.fromTask))

/-- Modelled from the spec: one pass of failure propagation — every still
pending task fed by a FAILED or SKIPPED source transitions to SKIPPED. -/
def skipOnce (g : EGraph) (sts : List TaskState) : List TaskState :=
  (List.range sts.length).map (fun t =>
    if isPendingState (sGet sts t) && hasBadSource g sts t then TaskState.SKIPPED
    else sGet sts t)

/-- Failure propagation iterated to its fixpoint. -/
def skipFix (g : EGraph) : Nat → List TaskState → List TaskState
  | 0, sts => sts
  | fuel + 1, sts =>
    let nxt := skipOnce g sts
    if nxt = sts then sts else skipFix g fuel nxt

/-- The outcome of one engine run: the dispatch order, the final state, and
whether the run ended in deadlock (pending tasks remain that no failure
explains). -/
structure RunResult where
  trace : List Nat
  final : EState
  deadlock : Bool
deriving DecidableEq, Repr

/-- The initial execution state: every task CREATED, no outputs, an empty
trace, and the caller-provided Context. -/
def initState (g : EGraph) (ctx0 : List (String × Value)) : EState :=
  { states := g.tasks.map (fun _ => TaskState.CREATED)
    outVals := g.tasks.map (fun _ => [])
    producedBy := g.tasks.map (fun _ => none)
    entries := []
    edges := []
    ctx := ctx0
    nextInv := 0 }

/-- Modelled from the spec: Engine.run — drive the scheduler until no task is
ready, then propagate failures so every dependent of a FAILED task ends
SKIPPED rather than waiting forever; the run is a deadlock when pending tasks
remain afterwards. -/
def runEngine (g : EGraph) (exec : ExecTable) (ctx0 : List (String × Value)) (fuel : Nat) :
    RunResult :=
  let res := runLoop g exec fuel (initState g ctx0)
  let sts := skipFix g (res.2.states.length + 1) res.2.states
  { trace := res.1
    final := { res.2 with states := sts }
    deadlock := sts.any isPendingState }

/-- One link of the graph leads directly from task u to task t. -/
def directDep (g : EGraph) (u t : Nat) : Prop :=
  ∃ l ∈ g.links, l.fromTask = u ∧ l.toTask = t

/-- Task t is downstream of task u: a chain of links leads from u to t,
directly or transitively. -/
inductive LinkPath (g : EGraph) : Nat → Nat → Prop where
  | single {u t : Nat} : directDep g u t → LinkPath g u t
  | cons {u m t : Nat} : directDep g u m → LinkPath g m t → LinkPath g u t

/-- Structural well-formedness of an executable graph, with a ranking
function witnessing acyclicity: an input socket receives at most one link,
link endpoints exist, links increase rank, and every input socket is either
connected or backed by a Property default. -/
structure GraphWF (g : EGraph) (rank : Nat → Nat) : Prop where
  oneLink : ∀ l1 ∈ g.links, ∀ l2 ∈ g.links, l1.toTask = l2.toTask → l1.toSock = l2.toSock → l1 = l2
  endsOk : ∀ l ∈ g.links, l.fromTask < g.tasks.length ∧ l.toTask < g.tasks.length ∧
    l.toSock < (taskOf g l.toTask).inputs.length
  acyc : ∀ l ∈ g.links, rank l.fromTask < rank l.toTask
  resolv : ∀ t, t < g.tasks.length → ∀ i, i < (taskOf g t).inputs.length →
    (linkInto g t i).isSome = true ∨ ((taskOf g t).inputs.getD i defInSock).hasDefault = true

/-- The executor table behaves according to okAt: a succeeding task returns
outputs of the declared arity on any input, a failing task always reports an
executor failure. -/
def ExecBehaves (g : EGraph) (exec : ExecTable) (okAt : Nat → Bool) : Prop :=
  ∀ t, t < g.tasks.length → ∀ ins,
    (okAt t = true → ∃ outs, exec t ins = ExecResult.ok outs ∧ outs.length = (taskOf g t).nOuts) ∧
    (okAt t = false → exec t ins = ExecResult.fail)

/-- The invariant the engine loop maintains; okAt tells which tasks'
executors succeed. -/
structure LoopInv (g : EGraph) (okAt : Nat → Bool) (s : EState) : Prop where
  len : s.states.length = g.tasks.length
  rng : ∀ t, stateOf s t = TaskState.CREATED ∨ stateOf s t = TaskState.WAITING ∨
    stateOf s t = TaskState.FINISHED ∨ stateOf s t = TaskState.FAILED
  finClosed : ∀ t u, stateOf s t = TaskState.FINISHED → directDep g u t →
    stateOf s u = TaskState.FINISHED
  failedOk : ∀ t, stateOf s t = TaskState.FAILED → okAt t = false
  finOk : ∀ t, stateOf s t = TaskState.FINISHED → okAt t = true

/-- The number of tasks of the graph still awaiting execution. -/
def pendCount (g : EGraph) (s : EState) : Nat :=
  (List.range g.tasks.length).countP (fun t => isPendingState (stateOf s t))

/-- Recorder sanity on the engine state: entry identifiers are below the next
fresh one and strictly increase along the trace. -/
def idsOkE (s : EState) : Prop :=
  (∀ e ∈ s.entries, e.invId < s.nextInv) ∧
    s.entries.Pairwise (fun e1 e2 => e1.invId < e2.invId)

/-- The add task of the concrete add-multiply scenario: x defaults to 1, y
defaults to 2, one output. -/
def addTask6 : ETask :=
  { identifier := "add", eName := "add1"
    inputs := [{ inName := "x", hasDefault := true, defaultVal := 1, ctxKey := none },
               { inName := "y", hasDefault := true, defaultVal := 2, ctxKey := none }]
    nOuts := 1 }

/-- The multiply task of the concrete add-multiply scenario: x fed by a link,
y defaults to 3, one output. -/
def mulTask6 : ETask :=
  { identifier := "multiply", eName := "multiply1"
    inputs := [{ inName := "x", hasDefault := false, defaultVal := 0, ctxKey := none },
               { inName := "y", hasDefault := true, defaultVal := 3, ctxKey := none }]
    nOuts := 1 }

/-- The concrete scenario graph: add's output linked into multiply's x. -/
def g6 : EGraph :=
  { tasks := [addTask6, mulTask6]
    links := [{ fromTask := 0, fromSock := 0, toTask := 1, toSock := 0 }] }

/-- The executor table of the concrete scenario: task 0 adds its two inputs,
task 1 multiplies them. -/
def exec6 : ExecTable := fun t ins =>
  if t = 0 then ExecResult.ok [ins.getD 0 0 + ins.getD 1 0]
  else ExecResult.ok [ins.getD 0 0 * ins.getD 1 0]

/-- The engine run of the concrete add-multiply scenario. -/
def run6 : RunResult := runEngine g6 exec6 [] 2

/-- A three-task graph for failure propagation: task 0 feeds task 1, task 2
is independent. -/
def g3f : EGraph :=
  { tasks := [{ identifier := "a", eName := "a1", inputs := [], nOuts := 1 },
              { identifier := "b", eName := "b1"
                inputs := [{ inName := "x", hasDefault := false, defaultVal := 0, ctxKey := none }]
                nOuts := 1 },
              { identifier := "c", eName := "c1", inputs := [], nOuts := 1 }]
    links := [{ fromTask := 0, fromSock := 0, toTask := 1, toSock := 0 }] }

/-- An executor table whose task 0 always fails while the others succeed. -/
def exec3f : ExecTable := fun t _ =>
  if t = 0 then ExecResult.fail else ExecResult.ok [5]

/-- A two-task construction graph: a float output socket on task 0, a float
input socket on task 1. -/
def g7c : CGraph :=
  { graphName := "g7"
    tasks := [{ identifier := "src", taskName := "t0", inSockets := []
                outSockets := [{ sockName := "result", stype := SocketType.tfloat }] },
              { identifier := "dst", taskName := "t1"
                inSockets := [{ sockName := "x", stype := SocketType.tfloat }]
                outSockets := [] }]
    links := [] }

/-- The intended link of the construction graph. -/
def l7c : CLink := { fromTask := 0, fromSock := 0, toTask := 1, toSock := 0 }

/-- A concrete two-item collection with distinct names. -/
def coll10 : Collection Nat := ⟨[{ itemName := "x", payload := 1 }, { itemName := "y", payload := 2 }]⟩

/-- A concrete registered adapter unwrapping list values to floats. -/
def adapters8 : List (PVal → Option PVal) :=
  [fun v => match v with
    | PVal.base PType.plist p => some (PVal.base PType.pfloat p)
    | _ => none]

/-- A concrete boxed float value. -/
def boxedVal8 : PVal := PVal.boxed (PVal.base PType.pfloat 2)

/-- The serializable graph of the YAML documentation example, extended with a
zone. -/
def sg9 : SGraph :=
  { sgName := "test_yaml"
    tasks := [{ identifier := "node_graph.test_float", stName := "float1"
                props := [{ propName := "value", value := DVal.di 2 }] },
              { identifier := "node_graph.test_float", stName := "float2"
                props := [{ propName := "value", value := DVal.di 3 }] },
              { identifier := "node_graph.test_add", stName := "add1", props := [] }]
    links := [{ fromTask := 0, fromSock := 0, toTask := 2, toSock := 0 },
              { fromTask := 1, fromSock := 0, toTask := 2, toSock := 1 }]
    zones := [{ kind := ZoneKind.zif, condTask := 0, condSock := 0, members := [2] }] }

/-- C7: adding a Link between an output socket and an input socket succeeds
exactly when the two declared types are compatible (equal, or either side the
generic type); an incompatible pair is reported as a typeMismatch error
immediately at graph-construction time, and the generic type is compatible
with every type. -/
theorem addLink_type_compatibility (g : CGraph) (l : CLink) (a b : SocketType)
    (ha : outSocketType g l.fromTask l.fromSock = some a)
    (hb : inSocketType g l.toTask l.toSock = some b) :
    (exOk (addLink g l) = true ↔ typesCompatible a b = true) ∧
    (typesCompatible a b = false →
      addLink g l = Except.error (GraphError.typeMismatch a b)) ∧
    (∀ t, typesCompatible SocketType.general t = true) := by
  unfold addLink
  rw [ha, hb]
  refine ⟨?_, ?_, ?_⟩
  · cases hc : typesCompatible a b <;> simp [hc, exOk]
  · intro hc
    simp [hc]
  · intro t
    cases t <;> rfl

/-- C7 witness: the concrete construction graph and float-to-float link. -/
theorem addLink_type_compatibility_app :
    outSocketType g7c 0 0 = some SocketType.tfloat ∧
    inSocketType g7c 1 0 = some SocketType.tfloat ∧
    ((exOk (addLink g7c l7c) = true ↔
        typesCompatible SocketType.tfloat SocketType.tfloat = true) ∧
      (typesCompatible SocketType.tfloat SocketType.tfloat = false →
        addLink g7c l7c =
          Except.error (GraphError.typeMismatch SocketType.tfloat SocketType.tfloat)) ∧
      (∀ t, typesCompatible SocketType.general t = true)) :=
  ⟨rfl, rfl, addLink_type_compatibility g7c l7c SocketType.tfloat SocketType.tfloat rfl rfl⟩

/-- In a list of named items with pairwise distinct names, lookup by the name
of the item at position i finds exactly that item. -/
theorem find?_byName_of_nodup {a : Type} :
    ∀ (l : List (NamedItem a)), (l.map NamedItem.itemName).Nodup →
      ∀ (i : Nat) (it : NamedItem a), l[i]? = some it →
        l.find? (fun x => x.itemName == it.itemName) = some it := by
  intro l
  induction l with
  | nil =>
    intro _ i it h
    simp at h
  | cons x xs ih =>
    intro hnd i it h
    rw [List.map_cons, List.nodup_cons] at hnd
    rcases hnd with ⟨hx, hxs⟩
    cases i with
    | zero =>
      rw [List.getElem?_cons_zero, Option.some.injEq] at h
      subst h
      simp
    | succ n =>
      rw [List.getElem?_cons_succ] at h
      have hmem : it ∈ xs := List.getElem?_mem h
      have hne : (x.itemName == it.itemName) = false := by
        refine beq_eq_false_iff_ne.mpr ?_
        intro he
        exact hx (he ▸ List.mem_map_of_mem NamedItem.itemName hmem)
      rw [List.find?_cons_of_neg _ (by simp [hne]), ih hxs n it h]

/-- C10: on every collection whose item names are distinct (as collection
construction enforces), access by position and access by name agree: when the
item at position i carries name n, looking up n returns that same item. -/
theorem collection_name_index_agree {a : Type} (c : Collection a)
    (hnd : (c.items.map NamedItem.itemName).Nodup) (i : Nat) (it : NamedItem a)
    (hi : c.getByIndex i = some it) :
    c.getByName it.itemName = some it ∧ c.getByIndex i = c.getByName it.itemName := by
  have hfind := find?_byName_of_nodup c.items hnd i it hi
  refine ⟨hfind, ?_⟩
  rw [hi]
  exact hfind.symm

/-- C10 witness: the concrete two-item collection at position 1. -/
theorem collection_name_index_agree_app :
    (coll10.items.map NamedItem.itemName).Nodup ∧
    coll10.getByIndex 1 = some { itemName := "y", payload := 2 } ∧
    (coll10.getByName "y" = some { itemName := "y", payload := 2 } ∧
      coll10.getByIndex 1 = coll10.getByName "y") :=
  ⟨by decide, rfl,
    collection_name_index_agree coll10 (by decide) 1 { itemName := "y", payload := 2 } rfl⟩

/-- C8: property validation accepts a value exactly when the value itself, or
a value obtained from it by a built-in unwrapping or a registered adapter,
matches allowed_types; otherwise it fails with a TypeMismatch naming the
socket and the offending value, and a success never returns anything beyond
the value or one of those candidates. -/
theorem property_validation_adapters (allowed : List PType)
    (adapters : List (PVal → Option PVal)) (socket : String) (v : PVal) :
    (exOk (validateProp allowed adapters socket v) = true ↔ specAccepts allowed adapters v) ∧
    (¬ specAccepts allowed adapters v →
      validateProp allowed adapters socket v =
        Except.error (PropError.typeMismatchAt socket v)) ∧
    (∀ w, validateProp allowed adapters socket v = Except.ok w →
      matchesAllowed allowed w = true ∧
        (w = v ∨ w ∈ builtinCandidates v ++ adapterCandidates adapters v)) := by
  unfold validateProp
  by_cases hm : matchesAllowed allowed v = true
  · rw [if_pos hm]
    refine ⟨?_, ?_, ?_⟩
    · simp only [exOk]
      exact ⟨fun _ => Or.inl hm, fun _ => trivial⟩
    · intro hn
      exact absurd (Or.inl hm) hn
    · intro w hw
      rw [Except.ok.injEq] at hw
      subst hw
      exact ⟨hm, Or.inl rfl⟩
  · rw [if_neg hm]
    cases hf : (builtinCandidates v ++ adapterCandidates adapters v).find? (matchesAllowed allowed) with
    | some w =>
      have hpw := List.find?_some hf
      have hmw := List.mem_of_find?_eq_some hf
      refine ⟨?_, ?_, ?_⟩
      · simp only [exOk]
        exact ⟨fun _ => Or.inr ⟨w, hmw, hpw⟩, fun _ => trivial⟩
      · intro hn
        exact absurd (Or.inr ⟨w, hmw, hpw⟩) hn
      · intro w2 hw2
        rw [Except.ok.injEq] at hw2
        subst hw2
        exact ⟨hpw, Or.inr hmw⟩
    | none =>
      have hall := List.find?_eq_none.mp hf
      refine ⟨?_, ?_, ?_⟩
      · simp only [exOk]
        constructor
        · intro h
          exact absurd h (by simp)
        · intro hacc
          rcases hacc with h1 | ⟨w, hwm, hwp⟩
          · exact absurd h1 hm
          · exact absurd hwp (hall w hwm)
      · intro _
        rfl
      · intro w hw
        exact absurd hw (by simp)

/-- C8 witness: a boxed float against allowed type float with a concrete
registered list adapter. -/
theorem property_validation_adapters_app :
    (exOk (validateProp [PType.pfloat] adapters8 "x" boxedVal8) = true ↔
      specAccepts [PType.pfloat] adapters8 boxedVal8) ∧
    (¬ specAccepts [PType.pfloat] adapters8 boxedVal8 →
      validateProp [PType.pfloat] adapters8 "x" boxedVal8 =
        Except.error (PropError.typeMismatchAt "x" boxedVal8)) ∧
    (∀ w, validateProp [PType.pfloat] adapters8 "x" boxedVal8 = Except.ok w →
      matchesAllowed [PType.pfloat] w = true ∧
        (w = boxedVal8 ∨ w ∈ builtinCandidates boxedVal8 ++ adapterCandidates adapters8 boxedVal8)) :=
  property_validation_adapters [PType.pfloat] adapters8 "x" boxedVal8

/-- With pairwise distinct task names, the index found for the name of the
task stored at position i is i itself. -/
theorem findTaskIdx_self :
    ∀ (ts : List STask), (ts.map STask.stName).Nodup →
      ∀ (i : Nat) (tk : STask), ts[i]? = some tk → findTaskIdx ts tk.stName = some i := by
  intro ts
  induction ts with
  | nil =>
    intro _ i tk h
    simp at h
  | cons x xs ih =>
    intro hnd i tk h
    rw [List.map_cons, List.nodup_cons] at hnd
    rcases hnd with ⟨hx, hxs⟩
    cases i with
    | zero =>
      rw [List.getElem?_cons_zero, Option.some.injEq] at h
      subst h
      simp [findTaskIdx]
    | succ n =>
      rw [List.getElem?_cons_succ] at h
      have hmem : tk ∈ xs := List.getElem?_mem h
      have hne : (x.stName == tk.stName) = false := by
        refine beq_eq_false_iff_ne.mpr ?_
        intro he
        exact hx (he ▸ List.mem_map_of_mem STask.stName hmem)
      simp [findTaskIdx, hne, ih hxs n tk h]

/-- Mapping a translation over encoded elements succeeds elementwise. -/
theorem mapE_map_eq_ok {b c : Type} (f : c → Except GraphError b) (h : b → c) :
    ∀ (xs : List b), (∀ x ∈ xs, f (h x) = Except.ok x) → mapE f (xs.map h) = Except.ok xs := by
  intro xs
  induction xs with
  | nil =>
    intro _
    rfl
  | cons x xs ih =>
    intro hall
    rw [List.map_cons]
    have h1 : f (h x) = Except.ok x := hall x (List.mem_cons_self x xs)
    have h2 : mapE f (xs.map h) = Except.ok xs :=
      ih (fun y hy => hall y (List.mem_cons_of_mem x hy))
    simp [mapE, h1, h2]

/-- C9: exporting a Graph to the serialized interchange form and importing it
back reproduces the Graph exactly — same task identifiers, task names,
property values, link endpoints and zone membership — whenever task names are
unique and all endpoints reference existing tasks. -/
theorem graph_doc_round_trip (g : SGraph)
    (hnd : (g.tasks.map STask.stName).Nodup)
    (hl : ∀ l ∈ g.links, l.fromTask < g.tasks.length ∧ l.toTask < g.tasks.length)
    (hz : ∀ z ∈ g.zones, z.condTask < g.tasks.length ∧ ∀ m ∈ z.members, m < g.tasks.length) :
    importDoc (exportDoc g) = Except.ok g := by
  have hname : ∀ i, i < g.tasks.length → findTaskIdx g.tasks (sTaskName g i) = some i := by
    intro i hi
    have hsome : g.tasks[i]? = some g.tasks[i] := List.getElem?_eq_getElem hi
    have : sTaskName g i = (g.tasks[i]).stName := by
      unfold sTaskName
      rw [hsome]
    rw [this]
    exact findTaskIdx_self g.tasks hnd i (g.tasks[i]) hsome
  have hlinks : mapE (importLink g.tasks)
      (g.links.map (fun l =>
        { fromNode := sTaskName g l.fromTask, fromSock := l.fromSock
          toNode := sTaskName g l.toTask, toSock := l.toSock : DocLink })) =
      Except.ok g.links := by
    apply mapE_map_eq_ok
    intro l hlmem
    rcases hl l hlmem with ⟨h1, h2⟩
    unfold importLink
    simp only
    rw [hname l.fromTask h1, hname l.toTask h2]
  have hzones : mapE (importZone g.tasks)
      (g.zones.map (fun z =>
        { kind := z.kind, condNode := sTaskName g z.condTask, condSock := z.condSock
          members := z.members.map (sTaskName g) : DocZone })) =
      Except.ok g.zones := by
    apply mapE_map_eq_ok
    intro z hzmem
    rcases hz z hzmem with ⟨h1, h2⟩
    unfold importZone
    simp only
    have hmem : mapE (fun m => req (findTaskIdx g.tasks m)) (z.members.map (sTaskName g)) =
        Except.ok z.members := by
      apply mapE_map_eq_ok
      intro m hm
      rw [hname m (h2 m hm)]
      rfl
    rw [hname z.condTask h1, hmem]
  unfold importDoc exportDoc
  simp only
  rw [hlinks, hzones]

/-- C9 witness: the YAML documentation example graph with a zone. -/
theorem graph_doc_round_trip_app :
    (sg9.tasks.map STask.stName).Nodup ∧
    (∀ l ∈ sg9.links, l.fromTask < sg9.tasks.length ∧ l.toTask < sg9.tasks.length) ∧
    (∀ z ∈ sg9.zones, z.condTask < sg9.tasks.length ∧ ∀ m ∈ z.members, m < sg9.tasks.length) ∧
    importDoc (exportDoc sg9) = Except.ok sg9 :=
  ⟨by decide, by decide, by decide,
    graph_doc_round_trip sg9 (by decide) (by decide) (by decide)⟩

/-- One body pass appends, for each task, exactly its number of occurrences
in the body. -/
theorem invCount_runZoneBody :
    ∀ (body : List Nat) (iter : Nat) (r : ZRecorder) (t : Nat),
      invCount (runZoneBody body iter r) t = invCount r t + body.count t := by
  intro body
  induction body with
  | nil =>
    intro iter r t
    simp [runZoneBody, invCount]
  | cons b bs ih =>
    intro iter r t
    rw [runZoneBody, ih]
    unfold invCount
    rw [List.count_cons]
    simp only [List.countP_append, List.countP_cons, List.countP_nil]
    by_cases hbt : b = t
    · subst hbt
      simp
      omega
    · have h1 : (b == t) = false := beq_eq_false_iff_ne.mpr hbt
      simp [h1]

/-- While iterations with a threshold condition add one body pass per true
check. -/
theorem invCount_runWhileZone (cond : Nat → Bool) (body : List Nat) (N t : Nat)
    (hcond : ∀ i, cond i = decide (i < N)) :
    ∀ (fuel iter : Nat) (r : ZRecorder), iter ≤ N → N - iter < fuel →
      invCount (runWhileZone cond body fuel iter r) t =
        invCount r t + (N - iter) * body.count t := by
  intro fuel
  induction fuel with
  | zero =>
    intro iter r _ hlt
    omega
  | succ fuel ih =>
    intro iter r hle hlt
    rw [runWhileZone]
    by_cases hiter : iter < N
    · have hc : cond iter = true := by rw [hcond]; simp [hiter]
      rw [if_pos hc]
      rw [ih (iter + 1) (runZoneBody body iter r) (by omega) (by omega)]
      rw [invCount_runZoneBody]
      have hsplit : N - iter = (N - (iter + 1)) + 1 := by omega
      rw [hsplit, Nat.succ_mul]
      omega
    · have hiN : iter = N := by omega
      subst hiN
      have hc : cond iter = false := by rw [hcond]; simp
      rw [if_neg (by simp [hc])]
      simp

/-- A body pass preserves recorder sanity, only appends entries, and never
lowers the fresh-identifier counter. -/
theorem idsOk_runZoneBody :
    ∀ (body : List Nat) (iter : Nat) (r : ZRecorder), idsOk r →
      idsOk (runZoneBody body iter r) ∧
        r.nextInv ≤ (runZoneBody body iter r).nextInv ∧
        ∃ ext, (runZoneBody body iter r).entries = r.entries ++ ext := by
  intro body
  induction body with
  | nil =>
    intro iter r hr
    exact ⟨hr, Nat.le_refl _, [], by simp [runZoneBody]⟩
  | cons b bs ih =>
    intro iter r hr
    rcases hr with ⟨hbound, hpw⟩
    have hr2 : idsOk ⟨r.entries ++ [⟨r.nextInv, b, iter⟩], r.nextInv + 1⟩ := by
      constructor
      · intro e he
        rcases List.mem_append.mp he with h | h
        · exact Nat.lt_trans (hbound e h) (Nat.lt_succ_self _)
        · rcases List.mem_singleton.mp h with rfl
          exact Nat.lt_succ_self _
      · rw [List.pairwise_append]
        refine ⟨hpw, List.pairwise_singleton _ _, ?_⟩
        intro e1 h1 e2 h2
        rcases List.mem_singleton.mp h2 with rfl
        exact hbound e1 h1
    rcases ih iter _ hr2 with ⟨h1, h2, ext, h3⟩
    refine ⟨by rw [runZoneBody]; exact h1, ?_, ?_⟩
    · rw [runZoneBody]
      exact Nat.le_trans (Nat.le_succ _) h2
    · refine ⟨⟨r.nextInv, b, iter⟩ :: ext, ?_⟩
      rw [runZoneBody, h3]
      simp

/-- A While zone preserves recorder sanity, only appends entries, and never
lowers the fresh-identifier counter. -/
theorem idsOk_runWhileZone (cond : Nat → Bool) (body : List Nat) :
    ∀ (fuel iter : Nat) (r : ZRecorder), idsOk r →
      idsOk (runWhileZone cond body fuel iter r) ∧
        r.nextInv ≤ (runWhileZone cond body fuel iter r).nextInv ∧
        ∃ ext, (runWhileZone cond body fuel iter r).entries = r.entries ++ ext := by
  intro fuel
  induction fuel with
  | zero =>
    intro iter r hr
    exact ⟨hr, Nat.le_refl _, [], by simp [runWhileZone]⟩
  | succ fuel ih =>
    intro iter r hr
    rw [runWhileZone]
    by_cases hc : cond iter = true
    · rw [if_pos hc]
      rcases idsOk_runZoneBody body iter r hr with ⟨h1, h2, ext1, h3⟩
      rcases ih (iter + 1) _ h1 with ⟨h4, h5, ext2, h6⟩
      refine ⟨h4, Nat.le_trans h2 h5, ext1 ++ ext2, ?_⟩
      rw [h6, h3, List.append_assoc]
    · rw [if_neg hc]
      exact ⟨hr, Nat.le_refl _, [], by simp⟩

/-- Every dispatch appends exactly one process entry carrying the fresh
invocation identifier, appends its lineage edges, and bumps the counter. -/
theorem dispatch_shape (g : EGraph) (exec : ExecTable) (s : EState) (t : Nat) :
    ∃ e1, (dispatch g exec s t).entries = s.entries ++ [e1] ∧ e1.invId = s.nextInv ∧
      (dispatch g exec s t).nextInv = s.nextInv + 1 ∧
      (dispatch g exec s t).edges = s.edges ++ lineageEdges g s t s.nextInv := by
  rcases hx : exec t (resolvedInputs g s t) with outs | _
  · by_cases h : (outs.length == (taskOf g t).nOuts) = true
    · refine ⟨{ invId := s.nextInv, taskIdx := t, resolved := resolvedInputs g s t
                outputs := some outs }, ?_, rfl, ?_, ?_⟩ <;> simp [dispatch, hx, h]
    · rw [Bool.not_eq_true] at h
      refine ⟨{ invId := s.nextInv, taskIdx := t, resolved := resolvedInputs g s t
                outputs := none }, ?_, rfl, ?_, ?_⟩ <;> simp [dispatch, hx, h]
  · refine ⟨{ invId := s.nextInv, taskIdx := t, resolved := resolvedInputs g s t
              outputs := none }, ?_, rfl, ?_, ?_⟩ <;> simp [dispatch, hx]

/-- A dispatch preserves engine recorder sanity and only appends to the trace
and the edge list. -/
theorem idsOkE_dispatch (g : EGraph) (exec : ExecTable) (s : EState) (t : Nat)
    (hs : idsOkE s) :
    idsOkE (dispatch g exec s t) ∧ s.nextInv ≤ (dispatch g exec s t).nextInv ∧
      (∃ ext, (dispatch g exec s t).entries = s.entries ++ ext) ∧
      (∃ ext2, (dispatch g exec s t).edges = s.edges ++ ext2) := by
  rcases dispatch_shape g exec s t with ⟨e1, hent, hid, hnext, hedge⟩
  rcases hs with ⟨hbound, hpw⟩
  refine ⟨⟨?_, ?_⟩, ?_, ⟨[e1], hent⟩, ⟨_, hedge⟩⟩
  · intro e he
    rw [hent] at he
    rw [hnext]
    rcases List.mem_append.mp he with h | h
    · exact Nat.lt_trans (hbound e h) (Nat.lt_succ_self _)
    · rcases List.mem_singleton.mp h with rfl
      rw [hid]
      exact Nat.lt_succ_self _
  · rw [hent, List.pairwise_append]
    refine ⟨hpw, List.pairwise_singleton _ _, ?_⟩
    intro a ha b hb
    rcases List.mem_singleton.mp hb with rfl
    rw [hid]
    exact hbound a ha
  · rw [hnext]
    exact Nat.le_succ _

/-- The engine loop preserves recorder sanity and only appends to the trace
and the edge list. -/
theorem idsOkE_runLoop (g : EGraph) (exec : ExecTable) :
    ∀ (fuel : Nat) (s : EState), idsOkE s →
      idsOkE (runLoop g exec fuel s).2 ∧
        (∃ ext, (runLoop g exec fuel s).2.entries = s.entries ++ ext) ∧
        (∃ ext2, (runLoop g exec fuel s).2.edges = s.edges ++ ext2) := by
  intro fuel
  induction fuel with
  | zero =>
    intro s hs
    exact ⟨hs, ⟨[], by simp [runLoop]⟩, ⟨[], by simp [runLoop]⟩⟩
  | succ fuel ih =>
    intro s hs
    rw [runLoop]
    cases hr : findReady g s with
    | none => exact ⟨hs, ⟨[], by simp⟩, ⟨[], by simp⟩⟩
    | some t =>
      rcases idsOkE_dispatch g exec s t hs with ⟨h1, _, ⟨ext1, h2⟩, ⟨ext2, h3⟩⟩
      rcases ih (dispatch g exec s t) h1 with ⟨h4, ⟨ext3, h5⟩, ⟨ext4, h6⟩⟩
      refine ⟨h4, ⟨ext1 ++ ext3, ?_⟩, ⟨ext2 ++ ext4, ?_⟩⟩
      · simp only
        rw [h5, h2, List.append_assoc]
      · simp only
        rw [h6, h3, List.append_assoc]

/-- C4: within one run every recorded invocation receives an identifier
distinct from every other — including repeated invocations of the same task
inside a While zone — and the recorder is append-only: the entry and edge
lists only ever grow and entries already written are never changed. -/
theorem recorder_unique_append_only
    (cond : Nat → Bool) (body : List Nat) (fuel iter : Nat) (r : ZRecorder)
    (g : EGraph) (exec : ExecTable) (efuel : Nat) (s : EState)
    (hr : idsOk r) (hs : idsOkE s) :
    (idsOk (runWhileZone cond body fuel iter r) ∧
      (runWhileZone cond body fuel iter r).entries.Pairwise
        (fun e1 e2 => e1.invId ≠ e2.invId) ∧
      (∃ ext, (runWhileZone cond body fuel iter r).entries = r.entries ++ ext)) ∧
    (idsOkE (runLoop g exec efuel s).2 ∧
      (runLoop g exec efuel s).2.entries.Pairwise (fun e1 e2 => e1.invId ≠ e2.invId) ∧
      (∃ ext, (runLoop g exec efuel s).2.entries = s.entries ++ ext) ∧
      (∃ ext2, (runLoop g exec efuel s).2.edges = s.edges ++ ext2)) := by
  rcases idsOk_runWhileZone cond body fuel iter r hr with ⟨h1, _, hext⟩
  rcases idsOkE_runLoop g exec efuel s hs with ⟨h4, hext2, hext3⟩
  refine ⟨⟨h1, ?_, hext⟩, h4, ?_, hext2, hext3⟩
  · exact h1.2.imp (fun h => Nat.ne_of_lt h)
  · exact h4.2.imp (fun h => Nat.ne_of_lt h)

/-- C4 witness: a concrete While recorder run and a concrete engine run. -/
theorem recorder_unique_append_only_app :
    idsOk ⟨[], 0⟩ ∧ idsOkE (initState g6 []) ∧
    ((idsOk (runWhileZone (fun i => decide (i < 2)) [0] 3 0 ⟨[], 0⟩) ∧
      (runWhileZone (fun i => decide (i < 2)) [0] 3 0 ⟨[], 0⟩).entries.Pairwise
        (fun e1 e2 => e1.invId ≠ e2.invId) ∧
      (∃ ext, (runWhileZone (fun i => decide (i < 2)) [0] 3 0 ⟨[], 0⟩).entries =
        (⟨[], 0⟩ : ZRecorder).entries ++ ext)) ∧
    (idsOkE (runLoop g6 exec6 2 (initState g6 [])).2 ∧
      (runLoop g6 exec6 2 (initState g6 [])).2.entries.Pairwise
        (fun e1 e2 => e1.invId ≠ e2.invId) ∧
      (∃ ext, (runLoop g6 exec6 2 (initState g6 [])).2.entries =
        (initState g6 []).entries ++ ext) ∧
      (∃ ext2, (runLoop g6 exec6 2 (initState g6 [])).2.edges =
        (initState g6 []).edges ++ ext2))) := by
  have hr : idsOk ⟨[], 0⟩ := ⟨fun e he => absurd he (List.not_mem_nil e), List.Pairwise.nil⟩
  have hs : idsOkE (initState g6 []) :=
    ⟨fun e he => absurd he (List.not_mem_nil e), List.Pairwise.nil⟩
  exact ⟨hr, hs, recorder_unique_append_only (fun i => decide (i < 2)) [0] 3 0 ⟨[], 0⟩
    g6 exec6 2 (initState g6 []) hr hs⟩

/-- C5: an If zone whose condition is false ends every body task SKIPPED with
no invocation recorded; with a true condition every body task is invoked
exactly once. -/
theorem if_zone_gating (body : List Nat) (r : ZRecorder) (t : Nat)
    (ht : t ∈ body) (hnd : body.Nodup) :
    ((runIfZone false body r).1 = body.map (fun b => (b, TaskState.SKIPPED)) ∧
      (runIfZone false body r).2 = r ∧
      (t, TaskState.SKIPPED) ∈ (runIfZone false body r).1) ∧
    ((t, TaskState.FINISHED) ∈ (runIfZone true body r).1 ∧
      invCount (runIfZone true body r).2 t = invCount r t + 1) := by
  have hcount : body.count t = 1 := List.count_eq_one_of_mem hnd ht
  refine ⟨⟨?_, ?_, ?_⟩, ?_, ?_⟩
  · simp [runIfZone]
  · simp [runIfZone]
  · have hfst : (runIfZone false body r).1 = body.map (fun b => (b, TaskState.SKIPPED)) := by
      simp [runIfZone]
    rw [hfst]
    exact List.mem_map_of_mem (fun b => (b, TaskState.SKIPPED)) ht
  · have hfst : (runIfZone true body r).1 = body.map (fun b => (b, TaskState.FINISHED)) := by
      simp [runIfZone]
    rw [hfst]
    exact List.mem_map_of_mem (fun b => (b, TaskState.FINISHED)) ht
  · have hsnd : (runIfZone true body r).2 = runZoneBody body 0 r := by
      simp [runIfZone]
    rw [hsnd, invCount_runZoneBody, hcount]

/-- C5 witness: a two-task body gated by each condition value. -/
theorem if_zone_gating_app :
    (3 ∈ [3, 5] ∧ ([3, 5] : List Nat).Nodup) ∧
    (((runIfZone false [3, 5] ⟨[], 0⟩).1 =
        [3, 5].map (fun b => (b, TaskState.SKIPPED)) ∧
      (runIfZone false [3, 5] ⟨[], 0⟩).2 = ⟨[], 0⟩ ∧
      (3, TaskState.SKIPPED) ∈ (runIfZone false [3, 5] ⟨[], 0⟩).1) ∧
    ((3, TaskState.FINISHED) ∈ (runIfZone true [3, 5] ⟨[], 0⟩).1 ∧
      invCount (runIfZone true [3, 5] ⟨[], 0⟩).2 3 = invCount ⟨[], 0⟩ 3 + 1)) :=
  ⟨⟨by decide, by decide⟩, if_zone_gating [3, 5] ⟨[], 0⟩ 3 (by decide) (by decide)⟩

/-- C2: a While zone whose condition holds for exactly N consecutive checks
and then fails invokes each body task exactly N times, and the recorder holds
exactly N invocation entries per body task, with pairwise distinct invocation
identifiers. -/
theorem while_zone_invocation_count (cond : Nat → Bool) (body : List Nat) (t N fuel : Nat)
    (hcond : ∀ i, cond i = decide (i < N)) (ht : t ∈ body) (hnd : body.Nodup)
    (hfuel : N < fuel) :
    invCount (runWhileZone cond body fuel 0 ⟨[], 0⟩) t = N ∧
    ((runWhileZone cond body fuel 0 ⟨[], 0⟩).entries.filter
        (fun e => e.taskIdx == t)).length = N ∧
    ((runWhileZone cond body fuel 0 ⟨[], 0⟩).entries.filter
        (fun e => e.taskIdx == t)).Pairwise (fun e1 e2 => e1.invId ≠ e2.invId) := by
  have hcount : body.count t = 1 := List.count_eq_one_of_mem hnd ht
  have hempty : invCount ⟨[], 0⟩ t = 0 := rfl
  have h1 : invCount (runWhileZone cond body fuel 0 ⟨[], 0⟩) t = N := by
    rw [invCount_runWhileZone cond body N t hcond fuel 0 ⟨[], 0⟩ (Nat.zero_le N)
      (by omega), hempty, hcount]
    omega
  have hr : idsOk ⟨[], 0⟩ := ⟨fun e he => absurd he (List.not_mem_nil e), List.Pairwise.nil⟩
  rcases idsOk_runWhileZone cond body fuel 0 ⟨[], 0⟩ hr with ⟨hok, _, _⟩
  refine ⟨h1, ?_, ?_⟩
  · rw [← List.countP_eq_length_filter]
    exact h1
  · exact List.Pairwise.sublist (List.filter_sublist _)
      (hok.2.imp (fun h => Nat.ne_of_lt h))

/-- C2 witness: a two-task body with a condition true for exactly two
checks. -/
theorem while_zone_invocation_count_app :
    (∀ i, (fun j => decide (j < 2)) i = decide (i < 2)) ∧ 0 ∈ [0, 1] ∧
    ([0, 1] : List Nat).Nodup ∧ 2 < 4 ∧
    (invCount (runWhileZone (fun j => decide (j < 2)) [0, 1] 4 0 ⟨[], 0⟩) 0 = 2 ∧
      ((runWhileZone (fun j => decide (j < 2)) [0, 1] 4 0 ⟨[], 0⟩).entries.filter
          (fun e => e.taskIdx == 0)).length = 2 ∧
      ((runWhileZone (fun j => decide (j < 2)) [0, 1] 4 0 ⟨[], 0⟩).entries.filter
          (fun e => e.taskIdx == 0)).Pairwise (fun e1 e2 => e1.invId ≠ e2.invId)) :=
  ⟨fun i => rfl, by decide, by decide, by decide,
    while_zone_invocation_count (fun j => decide (j < 2)) [0, 1] 0 2 4
      (fun i => rfl) (by decide) (by decide) (by decide)⟩

/-- C6: running the engine on the graph add(x=1,y=2) linked into
multiply(x=add.result, y=3) yields multiply output 9, add is FINISHED before
multiply is dispatched, and the provenance trace holds exactly two invocation
entries joined by one data-lineage edge. -/
theorem add_multiply_scenario :
    run6.trace = [0, 1] ∧
    run6.final.outVals.getD 1 [] = [9] ∧
    (runLoop g6 exec6 1 (initState g6 [])).2.states =
      [TaskState.FINISHED, TaskState.CREATED] ∧
    run6.final.entries =
      [{ invId := 0, taskIdx := 0, resolved := [1, 2], outputs := some [3] },
       { invId := 1, taskIdx := 1, resolved := [3, 3], outputs := some [9] }] ∧
    run6.final.edges = [{ srcInv := 0, dstInv := 1 }] ∧
    run6.final.states = [TaskState.FINISHED, TaskState.FINISHED] ∧
    run6.deadlock = false :=
  ⟨rfl, rfl, rfl, rfl, rfl, rfl, rfl⟩

/-- Setting a list entry changes getD at that index. -/
theorem listGetD_set_self {a : Type} (l : List a) (i : Nat) (x d : a) (h : i < l.length) :
    (l.set i x).getD i d = x := by
  rw [List.getD_eq_getElem?_getD, List.getElem?_set_self h]
  rfl

/-- Setting a list entry leaves getD at other indices unchanged. -/
theorem listGetD_set_ne {a : Type} (l : List a) (i j : Nat) (x d : a) (h : i ≠ j) :
    (l.set i x).getD j d = l.getD j d := by
  rw [List.getD_eq_getElem?_getD, List.getElem?_set_ne h, ← List.getD_eq_getElem?_getD]

/-- Every task of the fresh initial state is CREATED. -/
theorem initState_stateOf (g : EGraph) (ctx0 : List (String × Value)) (t : Nat) :
    stateOf (initState g ctx0) t = TaskState.CREATED := by
  unfold stateOf initState
  rw [List.getD_eq_getElem?_getD, List.getElem?_map]
  cases g.tasks[t]? <;> rfl

/-- Under a behaving executor table, dispatching task t sets exactly its
state, to FINISHED on success and FAILED on executor failure. -/
theorem dispatch_states_behaves (g : EGraph) (exec : ExecTable) (okAt : Nat → Bool)
    (hexec : ExecBehaves g exec okAt) (s : EState) (t : Nat) (ht : t < g.tasks.length) :
    (dispatch g exec s t).states =
      s.states.set t (if okAt t = true then TaskState.FINISHED else TaskState.FAILED) := by
  rcases hexec t ht (resolvedInputs g s t) with ⟨hok, hfail⟩
  cases hAt : okAt t with
  | false =>
    simp [dispatch, hfail hAt]
  | true =>
    rcases hok hAt with ⟨outs, hx, hlen2⟩
    simp [dispatch, hx, hlen2]

/-- The per-task view of a dispatch: the dispatched task ends FINISHED or
FAILED according to its executor, all other tasks keep their state. -/
theorem stateOf_dispatch_eq (g : EGraph) (exec : ExecTable) (okAt : Nat → Bool)
    (hexec : ExecBehaves g exec okAt) (s : EState) (t : Nat)
    (hlen : s.states.length = g.tasks.length) (ht : t < g.tasks.length) (u : Nat) :
    stateOf (dispatch g exec s t) u =
      if u = t then (if okAt t = true then TaskState.FINISHED else TaskState.FAILED)
      else stateOf s u := by
  have hset := dispatch_states_behaves g exec okAt hexec s t ht
  unfold stateOf
  rw [hset]
  by_cases hu : u = t
  · subst hu
    rw [if_pos rfl]
    exact listGetD_set_self _ _ _ _ (by rw [hlen]; exact ht)
  · rw [if_neg hu]
    exact listGetD_set_ne _ _ _ _ _ (fun he => hu he.symm)

/-- A ready task is in a pending state. -/
theorem ready_pending (g : EGraph) (s : EState) (t : Nat) (h : isReady g s t = true) :
    stateOf s t = TaskState.WAITING ∨ stateOf s t = TaskState.CREATED := by
  unfold isReady at h
  rw [Bool.and_eq_true] at h
  rcases Bool.or_eq_true_iff.mp h.1 with h1 | h1
  · exact Or.inl (by rwa [beq_iff_eq] at h1)
  · exact Or.inr (by rwa [beq_iff_eq] at h1)

/-- The unique link feeding an input socket is found by linkInto. -/
theorem linkInto_of_mem (g : EGraph) (rank : Nat → Nat) (hwf : GraphWF g rank)
    (l : ELink) (hl : l ∈ g.links) : linkInto g l.toTask l.toSock = some l := by
  cases hf : linkInto g l.toTask l.toSock with
  | none =>
    have := List.find?_eq_none.mp hf l hl
    simp at this
  | some l2 =>
    have hp := List.find?_some hf
    have hm := List.mem_of_find?_eq_some hf
    rw [Bool.and_eq_true, beq_iff_eq, beq_iff_eq] at hp
    rw [hwf.oneLink l2 hm l hl hp.1 hp.2]

/-- Readiness forces every direct upstream task to be FINISHED. -/
theorem ready_upstream (g : EGraph) (rank : Nat → Nat) (hwf : GraphWF g rank)
    (s : EState) (t u : Nat) (h : isReady g s t = true) (hdep : directDep g u t) :
    stateOf s u = TaskState.FINISHED := by
  rcases hdep with ⟨l, hl, hfrom, hto⟩
  have hinto : linkInto g t l.toSock = some l := by
    rw [← hto]
    exact linkInto_of_mem g rank hwf l hl
  unfold isReady at h
  rw [Bool.and_eq_true] at h
  have hall := List.all_eq_true.mp h.2
  have hsock : l.toSock < (taskOf g t).inputs.length := by
    have hbound := (hwf.endsOk l hl).2.2
    rwa [hto] at hbound
  have hres := hall l.toSock (List.mem_range.mpr hsock)
  unfold inputResolvable at hres
  rw [hinto] at hres
  rw [beq_iff_eq] at hres
  rw [← hfrom]
  exact hres

/-- What findReady returning an index means. -/
theorem findReady_some (g : EGraph) (s : EState) (t : Nat) (h : findReady g s = some t) :
    t < g.tasks.length ∧ isReady g s t = true := by
  have hp := List.find?_some h
  have hm := List.mem_of_find?_eq_some h
  exact ⟨List.mem_range.mp hm, hp⟩

/-- What findReady returning nothing means. -/
theorem findReady_none (g : EGraph) (s : EState) (h : findReady g s = none) :
    ∀ t, t < g.tasks.length → isReady g s t = false := by
  intro t ht
  have := List.find?_eq_none.mp h t (List.mem_range.mpr ht)
  simpa using this

/-- Counting over a fixed list strictly grows when the predicate grows
pointwise and flips at one member. -/
theorem countP_lt_pointwise {a : Type} :
    ∀ (L : List a) (p q : a → Bool), (∀ x ∈ L, p x = true → q x = true) →
      ∀ t ∈ L, p t = false → q t = true → L.countP p < L.countP q := by
  intro L p q himp t hmem hp hq
  rcases List.append_of_mem hmem with ⟨l1, l2, rfl⟩
  rw [List.countP_append, List.countP_append, List.countP_cons, List.countP_cons]
  rw [hp, hq]
  have h1 : l1.countP p ≤ l1.countP q :=
    List.countP_mono_left (fun x hx => himp x (List.mem_append_left _ hx))
  have h2 : l2.countP p ≤ l2.countP q :=
    List.countP_mono_left (fun x hx =>
      himp x (List.mem_append_right _ (List.mem_cons_of_mem _ hx)))
  have e1 : (if false = true then 1 else 0) = 0 := rfl
  have e2 : (if true = true then 1 else 0) = 1 := rfl
  rw [e1, e2]
  omega

/-- The loop invariant holds in the initial state. -/
theorem loopInv_init (g : EGraph) (okAt : Nat → Bool) (ctx0 : List (String × Value)) :
    LoopInv g okAt (initState g ctx0) := by
  constructor
  · unfold initState
    exact List.length_map _ _
  · intro t
    rw [initState_stateOf]
    exact Or.inl rfl
  · intro t u hfin _
    rw [initState_stateOf] at hfin
    cases hfin
  · intro t hfail
    rw [initState_stateOf] at hfail
    cases hfail
  · intro t hfin
    rw [initState_stateOf] at hfin
    cases hfin

/-- Dispatching a ready task preserves the loop invariant. -/
theorem loopInv_dispatch (g : EGraph) (rank : Nat → Nat) (okAt : Nat → Bool)
    (exec : ExecTable) (hwf : GraphWF g rank) (hexec : ExecBehaves g exec okAt)
    (s : EState) (t : Nat) (hinv : LoopInv g okAt s) (ht : t < g.tasks.length)
    (hready : isReady g s t = true) :
    LoopInv g okAt (dispatch g exec s t) := by
  have hstate := stateOf_dispatch_eq g exec okAt hexec s t hinv.len ht
  have hnotfin : stateOf s t ≠ TaskState.FINISHED := by
    rcases ready_pending g s t hready with hp | hp <;> rw [hp] <;> intro h <;> cases h
  constructor
  · rw [dispatch_states_behaves g exec okAt hexec s t ht, List.length_set]
    exact hinv.len
  · intro u
    rw [hstate]
    by_cases hu : u = t
    · rw [if_pos hu]
      cases okAt t
      · simp
      · simp
    · rw [if_neg hu]
      exact hinv.rng u
  · intro t2 u hfin hdep
    rw [hstate] at hfin
    rw [hstate]
    by_cases ht2 : t2 = t
    · rw [if_pos ht2] at hfin
      subst ht2
      have hup : stateOf s u = TaskState.FINISHED := ready_upstream g rank hwf s t2 u hready hdep
      by_cases hu : u = t2
      · rw [if_pos hu]
        cases hAt : okAt t2
        · rw [hAt] at hfin
          cases hfin
        · rfl
      · rw [if_neg hu]
        exact hup
    · rw [if_neg ht2] at hfin
      have hup := hinv.finClosed t2 u hfin hdep
      by_cases hu : u = t
      · subst hu
        exact absurd hup hnotfin
      · rw [if_neg hu]
        exact hup
  · intro u hfail
    rw [hstate] at hfail
    by_cases hu : u = t
    · rw [if_pos hu] at hfail
      subst hu
      cases hAt : okAt u
      · rfl
      · rw [hAt] at hfail
        cases hfail
    · rw [if_neg hu] at hfail
      exact hinv.failedOk u hfail
  · intro u hfin
    rw [hstate] at hfin
    by_cases hu : u = t
    · rw [if_pos hu] at hfin
      subst hu
      cases hAt : okAt u
      · rw [hAt] at hfin
        cases hfin
      · rfl
    · rw [if_neg hu] at hfin
      exact hinv.finOk u hfin

/-- Dispatching a ready task strictly lowers the number of pending tasks. -/
theorem pendCount_dispatch_lt (g : EGraph) (okAt : Nat → Bool) (exec : ExecTable)
    (hexec : ExecBehaves g exec okAt) (s : EState) (t : Nat) (hinv : LoopInv g okAt s)
    (ht : t < g.tasks.length) (hready : isReady g s t = true) :
    pendCount g (dispatch g exec s t) < pendCount g s := by
  have hstate := stateOf_dispatch_eq g exec okAt hexec s t hinv.len ht
  apply countP_lt_pointwise (List.range g.tasks.length)
    (fun u => isPendingState (stateOf (dispatch g exec s t) u))
    (fun u => isPendingState (stateOf s u)) ?_ t (List.mem_range.mpr ht) ?_ ?_
  · intro x _ hx
    change isPendingState (stateOf (dispatch g exec s t) x) = true at hx
    change isPendingState (stateOf s x) = true
    rw [hstate] at hx
    by_cases hxt : x = t
    · rw [if_pos hxt] at hx
      cases hAt : okAt t <;> rw [hAt] at hx <;> simp [isPendingState] at hx
    · rwa [if_neg hxt] at hx
  · change isPendingState (stateOf (dispatch g exec s t) t) = false
    rw [hstate, if_pos rfl]
    cases okAt t <;> rfl
  · change isPendingState (stateOf s t) = true
    rcases ready_pending g s t hready with hp | hp <;> rw [hp] <;> rfl

/-- The engine loop preserves the invariant, and with enough fuel ends with
no task ready. -/
theorem runLoop_inv (g : EGraph) (rank : Nat → Nat) (okAt : Nat → Bool) (exec : ExecTable)
    (hwf : GraphWF g rank) (hexec : ExecBehaves g exec okAt) :
    ∀ (fuel : Nat) (s : EState), LoopInv g okAt s → pendCount g s ≤ fuel →
      LoopInv g okAt (runLoop g exec fuel s).2 ∧
        findReady g (runLoop g exec fuel s).2 = none := by
  intro fuel
  induction fuel with
  | zero =>
    intro s hinv hle
    refine ⟨hinv, ?_⟩
    show findReady g s = none
    cases hr : findReady g s with
    | none => rfl
    | some t =>
      rcases findReady_some g s t hr with ⟨ht, hready⟩
      have hpend : isPendingState (stateOf s t) = true := by
        rcases ready_pending g s t hready with hp | hp <;> rw [hp] <;> rfl
      have hpos : 0 < pendCount g s := by
        unfold pendCount
        rw [List.countP_pos_iff]
        exact ⟨t, List.mem_range.mpr ht, hpend⟩
      omega
  | succ fuel ih =>
    intro s hinv hle
    cases hr : findReady g s with
    | none =>
      have hred : runLoop g exec (fuel + 1) s = ([], s) := by
        rw [runLoop, hr]
      rw [hred]
      exact ⟨hinv, hr⟩
    | some t =>
      rcases findReady_some g s t hr with ⟨ht, hready⟩
      have hinv2 := loopInv_dispatch g rank okAt exec hwf hexec s t hinv ht hready
      have hlt := pendCount_dispatch_lt g okAt exec hexec s t hinv ht hready
      have hred : (runLoop g exec (fuel + 1) s).2 = (runLoop g exec fuel (dispatch g exec s t)).2 := by
        rw [runLoop, hr]
      rw [hred]
      exact ih (dispatch g exec s t) hinv2 (by omega)

/-- Along the engine loop, every FINISHED task was dispatched, and every
dispatched task had all its direct upstream tasks dispatched earlier. -/
theorem runLoop_trace_good (g : EGraph) (rank : Nat → Nat) (okAt : Nat → Bool)
    (exec : ExecTable) (hwf : GraphWF g rank) (hexec : ExecBehaves g exec okAt) :
    ∀ (fuel : Nat) (s : EState) (pre : List Nat), LoopInv g okAt s →
      (∀ u, stateOf s u = TaskState.FINISHED → u ∈ pre) →
      ((∀ u, stateOf (runLoop g exec fuel s).2 u = TaskState.FINISHED →
          u ∈ pre ++ (runLoop g exec fuel s).1) ∧
        (∀ a t b, (runLoop g exec fuel s).1 = a ++ t :: b →
          ∀ u, directDep g u t → u ∈ pre ∨ u ∈ a)) := by
  intro fuel
  induction fuel with
  | zero =>
    intro s pre _ hfin
    constructor
    · intro u h
      have h2 : stateOf s u = TaskState.FINISHED := h
      exact List.mem_append_left _ (hfin u h2)
    · intro a t b h
      have h2 : ([] : List Nat) = a ++ t :: b := h
      cases a <;> simp at h2
  | succ fuel ih =>
    intro s pre hinv hfin
    cases hr : findReady g s with
    | none =>
      have hred : runLoop g exec (fuel + 1) s = ([], s) := by
        rw [runLoop, hr]
      rw [hred]
      constructor
      · intro u h
        have h2 : stateOf s u = TaskState.FINISHED := h
        exact List.mem_append_left _ (hfin u h2)
      · intro a t b h
        have h2 : ([] : List Nat) = a ++ t :: b := h
        cases a <;> simp at h2
    | some t =>
      rcases findReady_some g s t hr with ⟨ht, hready⟩
      have hinv2 := loopInv_dispatch g rank okAt exec hwf hexec s t hinv ht hready
      have hfin2 : ∀ u, stateOf (dispatch g exec s t) u = TaskState.FINISHED →
          u ∈ pre ++ [t] := by
        intro u h
        rw [stateOf_dispatch_eq g exec okAt hexec s t hinv.len ht] at h
        by_cases hu : u = t
        · exact List.mem_append_right _ (by rw [hu]; exact List.mem_singleton_self t)
        · rw [if_neg hu] at h
          exact List.mem_append_left _ (hfin u h)
      rcases ih (dispatch g exec s t) (pre ++ [t]) hinv2 hfin2 with ⟨ihfin, ihgood⟩
      have hred2 : (runLoop g exec (fuel + 1) s).2 = (runLoop g exec fuel (dispatch g exec s t)).2 := by
        rw [runLoop, hr]
      have hred1 : (runLoop g exec (fuel + 1) s).1 =
          t :: (runLoop g exec fuel (dispatch g exec s t)).1 := by
        rw [runLoop, hr]
      constructor
      · intro u h
        rw [hred2] at h
        have hu := ihfin u h
        rw [hred1]
        rw [List.append_assoc] at hu
        rwa [List.singleton_append] at hu
      · intro a t2 b hsplit u hdep
        rw [hred1] at hsplit
        cases a with
        | nil =>
          rw [List.nil_append] at hsplit
          rw [List.cons.injEq] at hsplit
          rcases hsplit with ⟨rfl, _⟩
          left
          exact hfin u (ready_upstream g rank hwf s t u hready hdep)
        | cons x a2 =>
          rw [List.cons_append, List.cons.injEq] at hsplit
          rcases hsplit with ⟨rfl, hsplit2⟩
          rcases ihgood a2 t2 b hsplit2 u hdep with hmem | hmem
          · rcases List.mem_append.mp hmem with hmem2 | hmem2
            · exact Or.inl hmem2
            · right
              rcases List.mem_singleton.mp hmem2 with rfl
              exact List.mem_cons_self _ _
          · right
            exact List.mem_cons_of_mem _ hmem

/-- Every nonempty list of task indices has a member of minimal rank. -/
theorem exists_min_rank (rank : Nat → Nat) :
    ∀ (L : List Nat), L ≠ [] → ∃ m ∈ L, ∀ u ∈ L, rank m ≤ rank u := by
  intro L
  induction L with
  | nil =>
    intro h
    exact absurd rfl h
  | cons x xs ih =>
    intro _
    by_cases hxs : xs = []
    · subst hxs
      refine ⟨x, List.mem_cons_self _ _, ?_⟩
      intro u hu
      rcases List.mem_cons.mp hu with rfl | hu2
      · exact Nat.le_refl _
      · cases hu2
    · rcases ih hxs with ⟨m, hm, hmin⟩
      by_cases hcmp : rank x ≤ rank m
      · refine ⟨x, List.mem_cons_self _ _, ?_⟩
        intro u hu
        rcases List.mem_cons.mp hu with rfl | hu2
        · exact Nat.le_refl _
        · exact Nat.le_trans hcmp (hmin u hu2)
      · refine ⟨m, List.mem_cons_of_mem _ hm, ?_⟩
        intro u hu
        rcases List.mem_cons.mp hu with rfl | hu2
        · exact Nat.le_of_lt (Nat.lt_of_not_le hcmp)
        · exact hmin u hu2

/-- When the scheduler finds nothing ready, every pending task has a link
from a source that is not FINISHED. -/
theorem pending_has_unfinished_source (g : EGraph) (rank : Nat → Nat) (hwf : GraphWF g rank)
    (s : EState) (hnone : findReady g s = none) (t : Nat) (ht : t < g.tasks.length)
    (hpend : isPendingState (stateOf s t) = true) :
    ∃ l ∈ g.links, l.toTask = t ∧ stateOf s l.fromTask ≠ TaskState.FINISHED := by
  have hnr := findReady_none g s hnone t ht
  unfold isReady at hnr
  rw [Bool.and_eq_false_iff] at hnr
  have hfirst : (stateOf s t == TaskState.WAITING || stateOf s t == TaskState.CREATED) = true := by
    unfold isPendingState at hpend
    rcases Bool.or_eq_true_iff.mp hpend with h | h
    · rw [Bool.or_eq_true_iff]
      right
      exact h
    · rw [Bool.or_eq_true_iff]
      left
      exact h
  rcases hnr with h | h
  · rw [hfirst] at h
    cases h
  · rcases List.all_eq_false.mp h with ⟨i, hi, hires⟩
    have hirange := List.mem_range.mp hi
    rw [Bool.not_eq_true] at hires
    unfold inputResolvable at hires
    cases hk : linkInto g t i with
    | none =>
      rcases hwf.resolv t ht i hirange with hsome | hdef
      · rw [hk] at hsome
        cases hsome
      · rw [List.getD_eq_getElem?_getD] at hdef
        simp [hk, hdef] at hires
    | some l =>
      have hp := List.find?_some hk
      have hm := List.mem_of_find?_eq_some hk
      rw [Bool.and_eq_true, beq_iff_eq, beq_iff_eq] at hp
      refine ⟨l, hm, hp.1, ?_⟩
      intro hfin
      simp [hk, hfin] at hires

/-- With a fully succeeding executor table, a loop end with nothing ready has
every task FINISHED. -/
theorem all_finished_of_allok (g : EGraph) (rank : Nat → Nat)
    (hwf : GraphWF g rank) (s : EState) (hinv : LoopInv g (fun _ => true) s)
    (hnone : findReady g s = none) :
    ∀ t, t < g.tasks.length → stateOf s t = TaskState.FINISHED := by
  have hnofail : ∀ t, stateOf s t ≠ TaskState.FAILED := by
    intro t hf
    have := hinv.failedOk t hf
    cases this
  have hnopend : ∀ t, t < g.tasks.length → isPendingState (stateOf s t) = false := by
    by_contra hcon
    push_neg at hcon
    rcases hcon with ⟨t0, ht0, hp0⟩
    simp only [Bool.not_eq_false] at hp0
    have hne : (List.range g.tasks.length).filter
        (fun t => isPendingState (stateOf s t)) ≠ [] := by
      intro hnil
      have : t0 ∈ (List.range g.tasks.length).filter (fun t => isPendingState (stateOf s t)) :=
        List.mem_filter.mpr ⟨List.mem_range.mpr ht0, hp0⟩
      rw [hnil] at this
      cases this
    rcases exists_min_rank rank _ hne with ⟨m, hm, hmin⟩
    rcases List.mem_filter.mp hm with ⟨hmr, hmp⟩
    have hmlt := List.mem_range.mp hmr
    rcases pending_has_unfinished_source g rank hwf s hnone m hmlt hmp with ⟨l, hl, hto, hsrc⟩
    have hsrclt := (hwf.endsOk l hl).1
    have hsrcpend : isPendingState (stateOf s l.fromTask) = true := by
      rcases hinv.rng l.fromTask with h | h | h | h
      · rw [h]; rfl
      · rw [h]; rfl
      · exact absurd h hsrc
      · exact absurd h (hnofail l.fromTask)
    have hsrcmem : l.fromTask ∈ (List.range g.tasks.length).filter
        (fun t => isPendingState (stateOf s t)) :=
      List.mem_filter.mpr ⟨List.mem_range.mpr hsrclt, hsrcpend⟩
    have h1 := hmin l.fromTask hsrcmem
    have h2 := hwf.acyc l hl
    rw [hto] at h2
    omega
  intro t ht
  rcases hinv.rng t with h | h | h | h
  · exfalso
    have := hnopend t ht
    rw [h] at this
    cases this
  · exfalso
    have := hnopend t ht
    rw [h] at this
    cases this
  · exact h
  · exact absurd h (hnofail t)

/-- Rank strictly increases along every link chain of an acyclic graph. -/
theorem linkPath_rank_lt (g : EGraph) (rank : Nat → Nat)
    (hacyc : ∀ l ∈ g.links, rank l.fromTask < rank l.toTask) :
    ∀ u t, LinkPath g u t → rank u < rank t := by
  intro u t hpath
  induction hpath with
  | single h =>
    rcases h with ⟨l, hl, hfrom, hto⟩
    rw [← hfrom, ← hto]
    exact hacyc l hl
  | cons h _ ih =>
    rcases h with ⟨l, hl, hfrom, hto⟩
    have h1 := hacyc l hl
    rw [hfrom, hto] at h1
    omega

/-- The endpoint of every link chain is an existing task. -/
theorem linkPath_target_lt (g : EGraph) (rank : Nat → Nat) (hwf : GraphWF g rank) :
    ∀ u t, LinkPath g u t → t < g.tasks.length := by
  intro u t hpath
  induction hpath with
  | single h =>
    rcases h with ⟨l, hl, _, hto⟩
    rw [← hto]
    exact (hwf.endsOk l hl).2.1
  | cons _ _ ih =>
    exact ih

/-- A link chain extended by one more link is a link chain. -/
theorem linkPath_snoc (g : EGraph) :
    ∀ u m t, LinkPath g u m → directDep g m t → LinkPath g u t := by
  intro u m t hpath
  induction hpath with
  | single h =>
    intro hdep
    exact LinkPath.cons h (LinkPath.single hdep)
  | cons h _ ih =>
    intro hdep
    exact LinkPath.cons h (ih hdep)

/-- Every link chain ends with a direct link from a task that is the start or
itself downstream of the start. -/
theorem linkPath_decomp (g : EGraph) :
    ∀ f t, LinkPath g f t → ∃ p, directDep g p t ∧ (p = f ∨ LinkPath g f p) := by
  intro f t hpath
  induction hpath with
  | @single f2 t2 h =>
    exact ⟨f2, h, Or.inl rfl⟩
  | @cons u m t2 h hp ih =>
    rcases ih with ⟨p, hpt, hor⟩
    rcases hor with rfl | hfp
    · exact ⟨p, hpt, Or.inr (LinkPath.single h)⟩
    · exact ⟨p, hpt, Or.inr (LinkPath.cons h hfp)⟩

/-- Upstream closure of FINISHED states extends along link chains. -/
theorem finClosed_path (g : EGraph) (s : EState)
    (hcl : ∀ t u, stateOf s t = TaskState.FINISHED → directDep g u t →
      stateOf s u = TaskState.FINISHED) :
    ∀ u t, LinkPath g u t → stateOf s t = TaskState.FINISHED →
      stateOf s u = TaskState.FINISHED := by
  intro u t hpath
  induction hpath with
  | single h =>
    intro hfin
    exact hcl _ _ hfin h
  | cons h _ ih =>
    intro hfin
    exact hcl _ _ (ih hfin) h

/-- A dispatch order whose direct dependencies always appear earlier also has
every transitive upstream task appear earlier. -/
theorem trace_good_trans (g : EGraph) (L : List Nat)
    (hd : ∀ a t b, L = a ++ t :: b → ∀ u, directDep g u t → u ∈ a) :
    ∀ u t, LinkPath g u t → ∀ a b, L = a ++ t :: b → u ∈ a := by
  intro u t hpath
  induction hpath with
  | @single u2 t2 h =>
    intro a b hsplit
    exact hd a t2 b hsplit u2 h
  | @cons u2 m t2 h hp ih =>
    intro a b hsplit
    have hm := ih a b hsplit
    rcases List.append_of_mem hm with ⟨a1, a2, ha⟩
    subst ha
    have hsplit2 : L = a1 ++ m :: (a2 ++ t2 :: b) := by
      rw [hsplit, List.append_assoc, List.cons_append]
    have hu := hd a1 m (a2 ++ t2 :: b) hsplit2 u2 h
    exact List.mem_append_left _ hu

/-- One propagation pass preserves the table length. -/
theorem skipOnce_length (g : EGraph) (sts : List TaskState) :
    (skipOnce g sts).length = sts.length := by
  unfold skipOnce
  rw [List.length_map, List.length_range]

/-- The pointwise description of one propagation pass. -/
theorem skipOnce_sGet (g : EGraph) (sts : List TaskState) (t : Nat) (ht : t < sts.length) :
    sGet (skipOnce g sts) t =
      if isPendingState (sGet sts t) && hasBadSource g sts t then TaskState.SKIPPED
      else sGet sts t := by
  unfold skipOnce sGet
  rw [List.getD_eq_getElem?_getD, List.getElem?_map, List.getElem?_range ht]
  rfl

/-- Iterated propagation preserves the table length. -/
theorem skipFix_length (g : EGraph) :
    ∀ (fuel : Nat) (sts : List TaskState), (skipFix g fuel sts).length = sts.length := by
  intro fuel
  induction fuel with
  | zero =>
    intro sts
    rfl
  | succ fuel ih =>
    intro sts
    rw [skipFix]
    by_cases h : skipOnce g sts = sts
    · rw [if_pos h]
    · rw [if_neg h, ih (skipOnce g sts), skipOnce_length]

/-- Iterated propagation never touches a task that is not pending. -/
theorem skipFix_nonpending (g : EGraph) :
    ∀ (fuel : Nat) (sts : List TaskState) (t : Nat),
      isPendingState (sGet sts t) = false →
      sGet (skipFix g fuel sts) t = sGet sts t := by
  intro fuel
  induction fuel with
  | zero =>
    intro sts t _
    rfl
  | succ fuel ih =>
    intro sts t hnp
    rw [skipFix]
    by_cases h : skipOnce g sts = sts
    · rw [if_pos h]
    · rw [if_neg h]
      have hstep : sGet (skipOnce g sts) t = sGet sts t := by
        by_cases ht : t < sts.length
        · rw [skipOnce_sGet g sts t ht, hnp]
          simp
        · unfold sGet
          have e1 : (skipOnce g sts)[t]? = none := by
            apply List.getElem?_eq_none
            rw [skipOnce_length]
            omega
          have e2 : sts[t]? = none := by
            apply List.getElem?_eq_none
            omega
          rw [List.getD_eq_getElem?_getD, List.getD_eq_getElem?_getD, e1, e2]
      rw [ih (skipOnce g sts) t (by rw [hstep]; exact hnp), hstep]

/-- Iterated propagation leaves a pending task its value or marks it
SKIPPED. -/
theorem skipFix_pending_cases (g : EGraph) :
    ∀ (fuel : Nat) (sts : List TaskState) (t : Nat),
      sGet (skipFix g fuel sts) t = sGet sts t ∨
        sGet (skipFix g fuel sts) t = TaskState.SKIPPED := by
  intro fuel
  induction fuel with
  | zero =>
    intro sts t
    exact Or.inl rfl
  | succ fuel ih =>
    intro sts t
    rw [skipFix]
    by_cases h : skipOnce g sts = sts
    · rw [if_pos h]
      exact Or.inl rfl
    · rw [if_neg h]
      have hstep : sGet (skipOnce g sts) t = sGet sts t ∨
          sGet (skipOnce g sts) t = TaskState.SKIPPED := by
        by_cases ht : t < sts.length
        · rw [skipOnce_sGet g sts t ht]
          by_cases hc : (isPendingState (sGet sts t) && hasBadSource g sts t) = true
          · rw [if_pos hc]
            exact Or.inr rfl
          · rw [if_neg hc]
            exact Or.inl rfl
        · left
          unfold sGet
          have e1 : (skipOnce g sts)[t]? = none := by
            apply List.getElem?_eq_none
            rw [skipOnce_length]
            omega
          have e2 : sts[t]? = none := by
            apply List.getElem?_eq_none
            omega
          rw [List.getD_eq_getElem?_getD, List.getD_eq_getElem?_getD, e1, e2]
      rcases ih (skipOnce g sts) t with h1 | h1
      · rcases hstep with h2 | h2
        · exact Or.inl (by rw [h1, h2])
        · exact Or.inr (by rw [h1, h2])
      · exact Or.inr h1

/-- Two state tables of equal length agreeing pointwise are equal. -/
theorem lists_eq_of_sGet (l1 l2 : List TaskState) (hlen : l1.length = l2.length)
    (h : ∀ t, t < l1.length → sGet l1 t = sGet l2 t) : l1 = l2 := by
  apply List.ext_getElem hlen
  intro i h1 h2
  have hi := h i h1
  unfold sGet at hi
  rw [List.getD_eq_getElem?_getD, List.getD_eq_getElem?_getD] at hi
  rw [List.getElem?_eq_getElem h1, List.getElem?_eq_getElem h2] at hi
  exact hi

/-- With fuel beyond the task count, iterated propagation reaches a fixpoint
of the single pass. -/
theorem skipFix_reaches (g : EGraph) :
    ∀ (fuel : Nat) (sts : List TaskState),
      sts.length < fuel +
        (List.range sts.length).countP (fun t => sGet sts t == TaskState.SKIPPED) →
      skipOnce g (skipFix g fuel sts) = skipFix g fuel sts := by
  intro fuel
  induction fuel with
  | zero =>
    intro sts h
    have hle : (List.range sts.length).countP (fun t => sGet sts t == TaskState.SKIPPED) ≤
        sts.length := by
      have hc := List.countP_le_length
        (p := fun t => sGet sts t == TaskState.SKIPPED) (l := List.range sts.length)
      rwa [List.length_range] at hc
    omega
  | succ fuel ih =>
    intro sts h
    rw [skipFix]
    by_cases hfix : skipOnce g sts = sts
    · rw [if_pos hfix]
      exact hfix
    · rw [if_neg hfix]
      apply ih
      have hlen := skipOnce_length g sts
      have hex : ∃ t, t < sts.length ∧ sGet (skipOnce g sts) t ≠ sGet sts t := by
        by_contra hcon
        push_neg at hcon
        exact hfix (lists_eq_of_sGet _ _ hlen (fun t ht => hcon t (by omega)))
      rcases hex with ⟨t0, ht0, hne⟩
      have hch := skipOnce_sGet g sts t0 ht0
      by_cases hc : (isPendingState (sGet sts t0) && hasBadSource g sts t0) = true
      case neg =>
        rw [if_neg hc] at hch
        exact absurd hch hne
      rw [if_pos hc] at hch
      rw [Bool.and_eq_true] at hc
      have hold : (sGet sts t0 == TaskState.SKIPPED) = false := by
        have hp := hc.1
        unfold isPendingState at hp
        rcases Bool.or_eq_true_iff.mp hp with h1 | h1 <;> rw [beq_iff_eq] at h1 <;>
          rw [h1] <;> rfl
      have hcnt : (List.range sts.length).countP (fun t => sGet sts t == TaskState.SKIPPED) <
          (List.range sts.length).countP
            (fun t => sGet (skipOnce g sts) t == TaskState.SKIPPED) := by
        apply countP_lt_pointwise (List.range sts.length) _ _ ?_ t0
          (List.mem_range.mpr ht0) ?_ ?_
        · intro x hx hpx
          change (sGet sts x == TaskState.SKIPPED) = true at hpx
          change (sGet (skipOnce g sts) x == TaskState.SKIPPED) = true
          have hxlt := List.mem_range.mp hx
          rw [skipOnce_sGet g sts x hxlt]
          rw [beq_iff_eq] at hpx
          rw [hpx]
          rfl
        · change (sGet sts t0 == TaskState.SKIPPED) = false
          exact hold
        · change (sGet (skipOnce g sts) t0 == TaskState.SKIPPED) = true
          rw [hch]
          rfl
      rw [skipOnce_length]
      omega

/-- At a propagation fixpoint no pending task keeps a FAILED or SKIPPED
source. -/
theorem skipOnce_fix_closed (g : EGraph) (sts : List TaskState)
    (hfix : skipOnce g sts = sts) (t : Nat) (ht : t < sts.length)
    (hpend : isPendingState (sGet sts t) = true) : hasBadSource g sts t = false := by
  by_contra hb
  rw [Bool.not_eq_false] at hb
  have hch := skipOnce_sGet g sts t ht
  rw [hfix, hpend, hb] at hch
  simp at hch
  rw [hch] at hpend
  simp [isPendingState] at hpend

/-- C1: on an acyclic zone-free graph with succeeding executors and enough
fuel, the engine dispatches every task, every task is dispatched only after
all of its upstream tasks (direct or transitive) were dispatched and
FINISHED, and the run ends with every task FINISHED. -/
theorem engine_topological_order (g : EGraph) (exec : ExecTable) (rank : Nat → Nat)
    (fuel : Nat) (hwf : GraphWF g rank) (hexec : ExecBehaves g exec (fun _ => true))
    (hfuel : g.tasks.length ≤ fuel) :
    (∀ t, t < g.tasks.length → t ∈ (runEngine g exec [] fuel).trace) ∧
    (∀ a t b, (runEngine g exec [] fuel).trace = a ++ t :: b →
      ∀ u, LinkPath g u t → u ∈ a) ∧
    (∀ t, t < g.tasks.length →
      (runEngine g exec [] fuel).final.states.getD t TaskState.CREATED =
        TaskState.FINISHED) := by
  have hinit := loopInv_init g (fun _ => true) []
  have hpc : pendCount g (initState g []) ≤ fuel := by
    have hc := List.countP_le_length
      (p := fun t => isPendingState (stateOf (initState g []) t))
      (l := List.range g.tasks.length)
    rw [List.length_range] at hc
    unfold pendCount
    omega
  rcases runLoop_inv g rank (fun _ => true) exec hwf hexec fuel (initState g [])
    hinit hpc with ⟨hinv2, hnone⟩
  have hfinend := all_finished_of_allok g rank hwf _ hinv2 hnone
  rcases runLoop_trace_good g rank (fun _ => true) exec hwf hexec fuel (initState g []) []
    hinit (fun u h => by rw [initState_stateOf] at h; cases h) with ⟨hfin, hgood⟩
  have htr : (runEngine g exec [] fuel).trace = (runLoop g exec fuel (initState g [])).1 := rfl
  have hfs : (runEngine g exec [] fuel).final.states =
      skipFix g ((runLoop g exec fuel (initState g [])).2.states.length + 1)
        (runLoop g exec fuel (initState g [])).2.states := rfl
  refine ⟨?_, ?_, ?_⟩
  · intro t ht
    have hmem := hfin t (hfinend t ht)
    rw [htr]
    simpa using hmem
  · intro a t b hsplit u hpath
    rw [htr] at hsplit
    have hd : ∀ a2 t2 b2, (runLoop g exec fuel (initState g [])).1 = a2 ++ t2 :: b2 →
        ∀ u2, directDep g u2 t2 → u2 ∈ a2 := by
      intro a2 t2 b2 hs u2 hdep
      rcases hgood a2 t2 b2 hs u2 hdep with hmem | hmem
      · cases hmem
      · exact hmem
    exact trace_good_trans g _ hd u t hpath a b hsplit
  · intro t ht
    rw [hfs]
    have hfint := hfinend t ht
    unfold stateOf at hfint
    have hnp : isPendingState
        (sGet (runLoop g exec fuel (initState g [])).2.states t) = false := by
      unfold sGet
      rw [hfint]
      rfl
    have hpres := skipFix_nonpending g
      ((runLoop g exec fuel (initState g [])).2.states.length + 1)
      (runLoop g exec fuel (initState g [])).2.states t hnp
    unfold sGet at hpres
    rw [hpres]
    exact hfint

/-- The concrete scenario executors always succeed with the declared
arity. -/
theorem exec6_behaves : ExecBehaves g6 exec6 (fun _ => true) := by
  intro t ht ins
  constructor
  · intro _
    by_cases h : t = 0
    · subst h
      exact ⟨[ins.getD 0 0 + ins.getD 1 0], rfl, rfl⟩
    · have ht2 : t < 2 := ht
      have ht1 : t = 1 := by omega
      subst ht1
      exact ⟨[ins.getD 0 0 * ins.getD 1 0], rfl, rfl⟩
  · intro hfalse
    cases hfalse

/-- C1 witness: the concrete two-task scenario graph with identity rank. -/
theorem engine_topological_order_app :
    GraphWF g6 (fun t => t) ∧ ExecBehaves g6 exec6 (fun _ => true) ∧
    g6.tasks.length ≤ 2 ∧
    ((∀ t, t < g6.tasks.length → t ∈ (runEngine g6 exec6 [] 2).trace) ∧
      (∀ a t b, (runEngine g6 exec6 [] 2).trace = a ++ t :: b →
        ∀ u, LinkPath g6 u t → u ∈ a) ∧
      (∀ t, t < g6.tasks.length →
        (runEngine g6 exec6 [] 2).final.states.getD t TaskState.CREATED =
          TaskState.FINISHED)) :=
  ⟨⟨by decide, by decide, by decide, by decide⟩, exec6_behaves, by decide,
    engine_topological_order g6 exec6 (fun t => t) 2
      ⟨by decide, by decide, by decide, by decide⟩ exec6_behaves (by decide)⟩

/-- Loop-end analysis with exactly one failing executor: the failing task is
FAILED and the pending set is exactly its strict downstream. -/
theorem c3_end_analysis (g : EGraph) (rank : Nat → Nat) (f : Nat)
    (hwf : GraphWF g rank) (hf : f < g.tasks.length)
    (s : EState) (hinv : LoopInv g (fun u => !(u == f)) s)
    (hnone : findReady g s = none) :
    stateOf s f = TaskState.FAILED ∧
    (∀ t, t < g.tasks.length → isPendingState (stateOf s t) = true → LinkPath g f t) ∧
    (∀ u, LinkPath g f u → isPendingState (stateOf s u) = true) := by
  have hfail_eq : ∀ u, stateOf s u = TaskState.FAILED → u = f := by
    intro u hu
    have hb := hinv.failedOk u hu
    simpa using hb
  have hfin_ne : stateOf s f ≠ TaskState.FINISHED := by
    intro hff
    have hb := hinv.finOk f hff
    simp at hb
  have hA : stateOf s f = TaskState.FAILED := by
    by_contra hA
    have hpf : isPendingState (stateOf s f) = true := by
      rcases hinv.rng f with h1 | h1 | h1 | h1
      · rw [h1]; rfl
      · rw [h1]; rfl
      · exact absurd h1 hfin_ne
      · exact absurd h1 hA
    have hne : (List.range g.tasks.length).filter
        (fun t => isPendingState (stateOf s t)) ≠ [] := by
      intro hnil
      have hmem : f ∈ (List.range g.tasks.length).filter
          (fun t => isPendingState (stateOf s t)) :=
        List.mem_filter.mpr ⟨List.mem_range.mpr hf, hpf⟩
      rw [hnil] at hmem
      cases hmem
    rcases exists_min_rank rank _ hne with ⟨m, hmmem, hmin⟩
    rcases List.mem_filter.mp hmmem with ⟨hmr, hmp⟩
    have hmlt := List.mem_range.mp hmr
    rcases pending_has_unfinished_source g rank hwf s hnone m hmlt hmp with ⟨l, hl, hto, hsrc⟩
    have hsrclt := (hwf.endsOk l hl).1
    have hrank := hwf.acyc l hl
    rw [hto] at hrank
    rcases hinv.rng l.fromTask with h1 | h1 | h1 | h1
    · have hpsrc : isPendingState (stateOf s l.fromTask) = true := by rw [h1]; rfl
      have hsm : l.fromTask ∈ (List.range g.tasks.length).filter
          (fun t => isPendingState (stateOf s t)) :=
        List.mem_filter.mpr ⟨List.mem_range.mpr hsrclt, hpsrc⟩
      have := hmin l.fromTask hsm
      omega
    · have hpsrc : isPendingState (stateOf s l.fromTask) = true := by rw [h1]; rfl
      have hsm : l.fromTask ∈ (List.range g.tasks.length).filter
          (fun t => isPendingState (stateOf s t)) :=
        List.mem_filter.mpr ⟨List.mem_range.mpr hsrclt, hpsrc⟩
      have := hmin l.fromTask hsm
      omega
    · exact absurd h1 hsrc
    · exact hA (by rw [← hfail_eq l.fromTask h1]; exact h1)
  refine ⟨hA, ?_, ?_⟩
  · have hB : ∀ k t, t < g.tasks.length → isPendingState (stateOf s t) = true →
        rank t < k → LinkPath g f t := by
      intro k
      induction k with
      | zero =>
        intro t _ _ h
        omega
      | succ k ih =>
        intro t ht hpend hrk
        rcases pending_has_unfinished_source g rank hwf s hnone t ht hpend with
          ⟨l, hl, hto, hsrc⟩
        have hdep : directDep g l.fromTask t := ⟨l, hl, rfl, hto⟩
        have hrank := hwf.acyc l hl
        rw [hto] at hrank
        have hsrclt := (hwf.endsOk l hl).1
        rcases hinv.rng l.fromTask with h1 | h1 | h1 | h1
        · have hp : isPendingState (stateOf s l.fromTask) = true := by rw [h1]; rfl
          exact linkPath_snoc g f l.fromTask t (ih l.fromTask hsrclt hp (by omega)) hdep
        · have hp : isPendingState (stateOf s l.fromTask) = true := by rw [h1]; rfl
          exact linkPath_snoc g f l.fromTask t (ih l.fromTask hsrclt hp (by omega)) hdep
        · exact absurd h1 hsrc
        · rw [← hfail_eq l.fromTask h1]
          exact LinkPath.single hdep
    intro t ht hpend
    exact hB (rank t + 1) t ht hpend (Nat.lt_succ_self _)
  · intro u hpath
    have hune : u ≠ f := by
      intro he
      have hlt := linkPath_rank_lt g rank hwf.acyc f u hpath
      rw [he] at hlt
      omega
    rcases hinv.rng u with h1 | h1 | h1 | h1
    · rw [h1]; rfl
    · rw [h1]; rfl
    · exfalso
      exact hfin_ne (finClosed_path g s hinv.finClosed f u hpath h1)
    · exact absurd (hfail_eq u h1) hune

/-- C3: when exactly one task's executor fails, that task ends the run
FAILED, every task downstream of it through links ends SKIPPED, every other
task ends FINISHED, and the run completes without deadlock. -/
theorem failure_propagation_skips_dependents (g : EGraph) (exec : ExecTable)
    (rank : Nat → Nat) (f fuel : Nat) (hwf : GraphWF g rank)
    (hexec : ExecBehaves g exec (fun u => !(u == f))) (hf : f < g.tasks.length)
    (hfuel : g.tasks.length ≤ fuel) :
    (runEngine g exec [] fuel).final.states.getD f TaskState.CREATED = TaskState.FAILED ∧
    (∀ u, LinkPath g f u →
      (runEngine g exec [] fuel).final.states.getD u TaskState.CREATED =
        TaskState.SKIPPED) ∧
    (∀ u, u < g.tasks.length → u ≠ f → ¬ LinkPath g f u →
      (runEngine g exec [] fuel).final.states.getD u TaskState.CREATED =
        TaskState.FINISHED) ∧
    (runEngine g exec [] fuel).deadlock = false := by
  have hinit := loopInv_init g (fun u => !(u == f)) []
  have hpc : pendCount g (initState g []) ≤ fuel := by
    have hc := List.countP_le_length
      (p := fun t => isPendingState (stateOf (initState g []) t))
      (l := List.range g.tasks.length)
    rw [List.length_range] at hc
    unfold pendCount
    omega
  rcases runLoop_inv g rank (fun u => !(u == f)) exec hwf hexec fuel (initState g [])
    hinit hpc with ⟨hinv2, hnone⟩
  rcases c3_end_analysis g rank f hwf hf (runLoop g exec fuel (initState g [])).2
    hinv2 hnone with ⟨hAf, hB, hC⟩
  have hn2 : (runLoop g exec fuel (initState g [])).2.states.length = g.tasks.length :=
    hinv2.len
  have hFlen : (skipFix g ((runLoop g exec fuel (initState g [])).2.states.length + 1)
      (runLoop g exec fuel (initState g [])).2.states).length =
      (runLoop g exec fuel (initState g [])).2.states.length :=
    skipFix_length g _ _
  have hfix : skipOnce g (skipFix g ((runLoop g exec fuel (initState g [])).2.states.length + 1)
      (runLoop g exec fuel (initState g [])).2.states) =
      skipFix g ((runLoop g exec fuel (initState g [])).2.states.length + 1)
        (runLoop g exec fuel (initState g [])).2.states := by
    apply skipFix_reaches
    omega
  have hAs : sGet (runLoop g exec fuel (initState g [])).2.states f = TaskState.FAILED := hAf
  have hnpf : isPendingState (sGet (runLoop g exec fuel (initState g [])).2.states f) =
      false := by
    rw [hAs]
    rfl
  have hFf : sGet (skipFix g ((runLoop g exec fuel (initState g [])).2.states.length + 1)
      (runLoop g exec fuel (initState g [])).2.states) f =
      sGet (runLoop g exec fuel (initState g [])).2.states f :=
    skipFix_nonpending g _ _ f hnpf
  have hnoFpend : ∀ t, t < g.tasks.length →
      isPendingState (sGet (skipFix g
        ((runLoop g exec fuel (initState g [])).2.states.length + 1)
        (runLoop g exec fuel (initState g [])).2.states) t) = false := by
    by_contra hcon
    push_neg at hcon
    rcases hcon with ⟨t0, ht0, hp0⟩
    simp only [Bool.not_eq_false] at hp0
    have hne : (List.range g.tasks.length).filter
        (fun t => isPendingState (sGet (skipFix g
          ((runLoop g exec fuel (initState g [])).2.states.length + 1)
          (runLoop g exec fuel (initState g [])).2.states) t)) ≠ [] := by
      intro hnil
      have hmem : t0 ∈ (List.range g.tasks.length).filter
          (fun t => isPendingState (sGet (skipFix g
            ((runLoop g exec fuel (initState g [])).2.states.length + 1)
            (runLoop g exec fuel (initState g [])).2.states) t)) :=
        List.mem_filter.mpr ⟨List.mem_range.mpr ht0, hp0⟩
      rw [hnil] at hmem
      cases hmem
    rcases exists_min_rank rank _ hne with ⟨m, hmmem, hmin⟩
    rcases List.mem_filter.mp hmmem with ⟨hmr, hmp⟩
    have hmlt := List.mem_range.mp hmr
    have hms2 : isPendingState (sGet (runLoop g exec fuel (initState g [])).2.states m) =
        true := by
      cases hq : isPendingState (sGet (runLoop g exec fuel (initState g [])).2.states m) with
      | true => rfl
      | false =>
        have hpres := skipFix_nonpending g
          ((runLoop g exec fuel (initState g [])).2.states.length + 1)
          (runLoop g exec fuel (initState g [])).2.states m hq
        rw [hpres] at hmp
        rw [hmp] at hq
        cases hq
    have hpathm := hB m hmlt hms2
    rcases linkPath_decomp g f m hpathm with ⟨p, hpm, hor⟩
    rcases hpm with ⟨l, hl, hfrom, hto⟩
    have hclosed := skipOnce_fix_closed g _ hfix m (by rw [hFlen, hn2]; exact hmlt) hmp
    have hbad : hasBadSource g (skipFix g
        ((runLoop g exec fuel (initState g [])).2.states.length + 1)
        (runLoop g exec fuel (initState g [])).2.states) m = true := by
      unfold hasBadSource
      rw [List.any_eq_true]
      refine ⟨l, hl, ?_⟩
      rw [Bool.and_eq_true, beq_iff_eq]
      refine ⟨hto, ?_⟩
      rcases hor with hpf | hpath2
      · rw [hfrom, hpf, hFf, hAs]
        rfl
      · have hps2 := hC p hpath2
        have hplt := linkPath_target_lt g rank hwf f p hpath2
        rcases skipFix_pending_cases g
            ((runLoop g exec fuel (initState g [])).2.states.length + 1)
            (runLoop g exec fuel (initState g [])).2.states p with hcase | hcase
        · exfalso
          have hpF : isPendingState (sGet (skipFix g
              ((runLoop g exec fuel (initState g [])).2.states.length + 1)
              (runLoop g exec fuel (initState g [])).2.states) p) = true := by
            rw [hcase]
            exact hps2
          have hpmem : p ∈ (List.range g.tasks.length).filter
              (fun t => isPendingState (sGet (skipFix g
                ((runLoop g exec fuel (initState g [])).2.states.length + 1)
                (runLoop g exec fuel (initState g [])).2.states) t)) :=
            List.mem_filter.mpr ⟨List.mem_range.mpr hplt, hpF⟩
          have h1 := hmin p hpmem
          have h2 := hwf.acyc l hl
          rw [hfrom, hto] at h2
          omega
        · rw [hfrom, hcase]
          rfl
    rw [hbad] at hclosed
    cases hclosed
  refine ⟨?_, ?_, ?_, ?_⟩
  · show sGet (skipFix g ((runLoop g exec fuel (initState g [])).2.states.length + 1)
      (runLoop g exec fuel (initState g [])).2.states) f = TaskState.FAILED
    rw [hFf]
    exact hAs
  · intro u hpath
    have hult := linkPath_target_lt g rank hwf f u hpath
    have hps2 := hC u hpath
    have hnF := hnoFpend u hult
    show sGet (skipFix g ((runLoop g exec fuel (initState g [])).2.states.length + 1)
      (runLoop g exec fuel (initState g [])).2.states) u = TaskState.SKIPPED
    rcases skipFix_pending_cases g
        ((runLoop g exec fuel (initState g [])).2.states.length + 1)
        (runLoop g exec fuel (initState g [])).2.states u with hcase | hcase
    · exfalso
      rw [hcase] at hnF
      have hps2s : isPendingState
          (sGet (runLoop g exec fuel (initState g [])).2.states u) = true := hps2
      rw [hps2s] at hnF
      cases hnF
    · exact hcase
  · intro u hult hune hnopath
    have hnp : isPendingState (sGet (runLoop g exec fuel (initState g [])).2.states u) =
        false := by
      cases hq : isPendingState (sGet (runLoop g exec fuel (initState g [])).2.states u) with
      | false => rfl
      | true => exact absurd (hB u hult hq) hnopath
    show sGet (skipFix g ((runLoop g exec fuel (initState g [])).2.states.length + 1)
      (runLoop g exec fuel (initState g [])).2.states) u = TaskState.FINISHED
    rw [skipFix_nonpending g _ _ u hnp]
    rcases hinv2.rng u with h1 | h1 | h1 | h1
    · exfalso
      have : isPendingState (sGet (runLoop g exec fuel (initState g [])).2.states u) =
          true := by
        show isPendingState (stateOf (runLoop g exec fuel (initState g [])).2 u) = true
        rw [h1]
        rfl
      rw [this] at hnp
      cases hnp
    · exfalso
      have : isPendingState (sGet (runLoop g exec fuel (initState g [])).2.states u) =
          true := by
        show isPendingState (stateOf (runLoop g exec fuel (initState g [])).2 u) = true
        rw [h1]
        rfl
      rw [this] at hnp
      cases hnp
    · exact h1
    · exfalso
      have hbe := hinv2.failedOk u h1
      simp at hbe
      exact hune hbe
  · show (skipFix g ((runLoop g exec fuel (initState g [])).2.states.length + 1)
      (runLoop g exec fuel (initState g [])).2.states).any isPendingState = false
    cases hany : (skipFix g ((runLoop g exec fuel (initState g [])).2.states.length + 1)
        (runLoop g exec fuel (initState g [])).2.states).any isPendingState with
    | false => rfl
    | true =>
      exfalso
      rcases List.any_eq_true.mp hany with ⟨x, hxmem, hxp⟩
      rcases List.mem_iff_getElem.mp hxmem with ⟨j, hj, hxj⟩
      have hjn : j < g.tasks.length := by
        rw [hFlen, hn2] at hj
        exact hj
      have hsg : sGet (skipFix g ((runLoop g exec fuel (initState g [])).2.states.length + 1)
          (runLoop g exec fuel (initState g [])).2.states) j = x := by
        unfold sGet
        rw [List.getD_eq_getElem?_getD, List.getElem?_eq_getElem hj, hxj]
        rfl
      have hnf := hnoFpend j hjn
      rw [hsg, hxp] at hnf
      cases hnf

/-- The failure-scenario executors: task 0 fails, the others succeed with the
declared arity. -/
theorem exec3f_behaves : ExecBehaves g3f exec3f (fun u => !(u == 0)) := by
  intro t ht ins
  constructor
  · intro hok
    have ht0 : t ≠ 0 := by simpa using hok
    refine ⟨[5], ?_, ?_⟩
    · simp [exec3f, ht0]
    · have ht3 : t < 3 := ht
      have hc : t = 1 ∨ t = 2 := by omega
      rcases hc with rfl | rfl <;> rfl
  · intro hfail
    have ht0 : t = 0 := by simpa using hfail
    subst ht0
    rfl

/-- C3 witness: the concrete graph where task 0 fails, task 1 depends on it
and task 2 is independent. -/
theorem failure_propagation_skips_dependents_app :
    GraphWF g3f (fun t => t) ∧ ExecBehaves g3f exec3f (fun u => !(u == 0)) ∧
    0 < g3f.tasks.length ∧ g3f.tasks.length ≤ 3 ∧
    ((runEngine g3f exec3f [] 3).final.states.getD 0 TaskState.CREATED =
        TaskState.FAILED ∧
      (∀ u, LinkPath g3f 0 u →
        (runEngine g3f exec3f [] 3).final.states.getD u TaskState.CREATED =
          TaskState.SKIPPED) ∧
      (∀ u, u < g3f.tasks.length → u ≠ 0 → ¬ LinkPath g3f 0 u →
        (runEngine g3f exec3f [] 3).final.states.getD u TaskState.CREATED =
          TaskState.FINISHED) ∧
      (runEngine g3f exec3f [] 3).deadlock = false) :=
  ⟨⟨by decide, by decide, by decide, by decide⟩, exec3f_behaves, by decide, by decide,
    failure_propagation_skips_dependents g3f exec3f (fun t => t) 0 3
      ⟨by decide, by decide, by decide, by decide⟩ exec3f_behaves (by decide) (by decide)⟩
